import Mathlib

/-!
# Verification of the graph-decoding subsystem of `lib/models/nn.py`

Shallow embedding of the decoding / structural-consistency functions of the
neural dependency parser (`parse_argmax`, `ensure_gt_one_root`,
`ensure_lt_two_root`, `rel_argmax`, `check_cycles_svd`, `compute_cycles`,
`gen_targets_mask`) and proofs about them.

Modelling conventions:
* numpy arrays are Lean lists (`List ℚ` for vectors, `List (List ℚ)` for
  matrices); machine floats are modelled as exact rationals.
* `np.argmax` / `np.argmin` return the first index attaining the extremum
  (numpy's documented tie-breaking); on an empty list numpy raises, the model
  returns `0`, and every theorem touching that case carries a nonemptiness
  hypothesis.
* in-place numpy writes (`a[i] = v`, fancy assignment `a[idx] = vals`) are
  modelled by `List.set` folds; functions that write into an argument array
  return the final state of that array alongside their result.
* `scipy.sparse.csgraph.minimum_spanning_tree` is modelled by Kruskal's
  algorithm over the stored nonzero entries of the dense matrix (each stored
  entry `(i, j)` is an undirected edge `i — j` of weight `M[i][j]`; kept edges
  stay at their stored position; zero entries are non-edges), which is what the
  scipy routine computes.  scipy sorts edge weights with an unstable sort; the
  model sorts stably, and every concrete input used in a theorem below has
  pairwise distinct edge weights so the distinction never matters.
* `scipy.sparse.csgraph.connected_components(..., connection='weak')` is
  modelled by label merging over the edge list.
-/

namespace LISA

/-- Matrices as lists of rows of rationals. -/
abbrev Mat := List (List ℚ)

/-- Vector read with numpy-like default `0` out of range. -/
def vget (v : List ℚ) (i : ℕ) : ℚ := v.getD i 0

/-- Matrix read, default `0` out of range. -/
def mget (M : Mat) (i j : ℕ) : ℚ := (M.getD i []).getD j 0

/-- Matrix write `M[i][j] = v` (no-op out of range, like `List.set`). -/
def mset (M : Mat) (i j : ℕ) (v : ℚ) : Mat := M.set i ((M.getD i []).set j v)

/-- An `n × m` all-zero matrix (`np.zeros`). -/
def zeros (n m : ℕ) : Mat := List.replicate n (List.replicate m 0)

/-- Tail-recursive core of `np.argmax`: scan list `l` whose first element has
index `i`, with current best value `bv` at index `bi`; a strictly greater
value replaces the best, so the first maximal index wins. -/
def argmaxGo : List ℚ → ℕ → ℚ → ℕ → ℕ
  | [], bi, _, _ => bi
  | x :: xs, bi, bv, i => if bv < x then argmaxGo xs i x (i + 1) else argmaxGo xs bi bv (i + 1)

/-- `np.argmax` on a vector: first index attaining the maximum (`0` on `[]`,
where numpy raises instead). -/
def argmax : List ℚ → ℕ
  | [] => 0
  | x :: xs => argmaxGo xs 0 x 1

/-- `np.argmin` on a vector, modelled as the argmax of the negated vector:
first index attaining the minimum. -/
def argmin (l : List ℚ) : ℕ := argmax (l.map (fun x => -x))

/-- `np.sum(tokens_to_keep)` for a boolean validity mask: the number of valid
tokens (`length`, nn.py line 1751). -/
def countTrue (keep : List Bool) : ℕ := (keep.filter id).length

/-- `parse_probs * tokens_to_keep` (nn.py line 1754): the 1-D 0/1 mask
broadcasts across rows, zeroing the columns of invalid head candidates.  This
allocates a fresh array, so the caller's matrix is never written afterwards. -/
def maskCols (P : Mat) (keep : List Bool) : Mat :=
  P.map (fun row => List.zipWith (fun x b => if b then x else 0) row keep)

/-- `roots = [i for i, p in enumerate(parse_preds[:length]) if i == p]`
(nn.py line 1756): the self-headed tokens among the first `length`. -/
def rootsOf (preds : List ℕ) (length : ℕ) : List ℕ :=
  (List.range length).filter (fun i => preds.getD i 0 == i)

/-- `new_root_probs = root_probs / old_head_probs` of `ensure_gt_one_root`
(nn.py 1718-1724).  `np.diagonal(parse_probs[tokens])` selects entry
`parse_probs[tokens[k], k]`; with `tokens = np.arange(length)` (the only call
pattern) this is the diagonal. -/
def gtOneRatioList (parse_preds : List ℕ) (parse_probs : Mat) (tokens : List ℕ) :
    List ℚ :=
  let root_probs := (List.range tokens.length).map
    (fun k => mget parse_probs (tokens.getD k 0) k)
  let old_head_probs := tokens.map (fun t => mget parse_probs t (parse_preds.getD t 0))
  List.zipWith (fun a b => a / b) root_probs old_head_probs

/-- `new_root = tokens[np.argmax(new_root_probs)]` (nn.py 1726). -/
def gtOneNewRoot (parse_preds : List ℕ) (parse_probs : Mat) (tokens : List ℕ) : ℕ :=
  tokens.getD (argmax (gtOneRatioList parse_preds parse_probs tokens)) 0

/-- `ensure_gt_one_root` (nn.py 1718-1729): the ratio of the self-attach
probability to the chosen-head probability is maximized and that token is made
its own head.  `parse_probs` is never written by the source function, so only
the predictions are returned. -/
def ensure_gt_one_root (parse_preds : List ℕ) (parse_probs : Mat) (tokens : List ℕ) :
    List ℕ :=
  let new_root := gtOneNewRoot parse_preds parse_probs tokens
  parse_preds.set new_root new_root

/-- Matrix state after `parse_probs[roots, roots] = 0` (nn.py 1736). -/
def zeroRootSelf (parse_probs : Mat) (roots : List ℕ) : Mat :=
  roots.foldl (fun M r => mset M r r 0) parse_probs

/-- One row of `np.argmax(parse_probs[roots][:, tokens], axis=1)` (nn.py
1738): the best alternative head of root `r` once its self-score is zeroed. -/
def ltTwoNewHead (probs1 : Mat) (tokens : List ℕ) (r : ℕ) : ℕ :=
  argmax (tokens.map (fun t => mget probs1 r t))

/-- `new_head_probs = parse_probs[roots, new_heads] / root_probs` (nn.py
1734-1739); `root_probs` is captured before the zeroing, the numerator read
after it. -/
def ltTwoRatioList (parse_probs : Mat) (roots tokens : List ℕ) : List ℚ :=
  let root_probs := roots.map (fun r => mget parse_probs r r)
  let probs1 := zeroRootSelf parse_probs roots
  List.zipWith (fun rh rp => mget probs1 rh.1 rh.2 / rp)
    (roots.zip (roots.map (ltTwoNewHead probs1 tokens))) root_probs

/-- `ensure_lt_two_root` (nn.py 1732-1745).  Writes `parse_probs[roots, roots] = 0`
in place, so the final state of `parse_probs` is returned beside the new
predictions.  `np.argmax(parse_probs[roots][:, tokens], axis=1)` yields
positions inside `tokens`, used directly as head indices (the `# + 1` offset is
commented out in the source because `tokens = np.arange(length)`). -/
def ensure_lt_two_root (parse_preds : List ℕ) (parse_probs : Mat)
    (roots tokens : List ℕ) : List ℕ × Mat :=
  let probs1 := zeroRootSelf parse_probs roots
  let new_heads := roots.map (ltTwoNewHead probs1 tokens)
  let new_root := roots.getD (argmin (ltTwoRatioList parse_probs roots tokens)) 0
  let preds1 := (roots.zip new_heads).foldl (fun a p => a.set p.1 p.2) parse_preds
  (preds1.set new_root new_root, probs1)

/-- `roots = np.where(rel_preds[tokens] == root)[0]` (nn.py 1878): the valid
tokens currently labeled ROOT, in ascending order. -/
def relRootsOf (preds : List ℕ) (root length : ℕ) : List ℕ :=
  (List.range length).filter (fun i => preds.getD i 0 == root)

/-- Matrix state after `rel_probs[roots, root] = 0` (nn.py 1884). -/
def relZeroRoot (probs0 : Mat) (roots : List ℕ) (root : ℕ) : Mat :=
  roots.foldl (fun M r => mset M r root 0) probs0

/-- One row of `np.argmax(rel_probs[roots], axis=1)` (nn.py 1885): the best
label of token `r` once its ROOT probability is zeroed (the full label row,
not restricted to any token range). -/
def relNewPred (probs1 : Mat) (r : ℕ) : ℕ := argmax (probs1.getD r [])

/-- `new_rel_probs = rel_probs[roots, new_rel_preds] / root_probs` (nn.py
1883-1886); `root_probs` is captured before the zeroing, the numerator read
after it. -/
def relRatioList (probs0 : Mat) (roots : List ℕ) (root : ℕ) : List ℚ :=
  let root_probs := roots.map (fun r => mget probs0 r root)
  let probs1 := relZeroRoot probs0 roots root
  List.zipWith (fun rp q => mget probs1 rp.1 rp.2 / q)
    (roots.zip (roots.map (relNewPred probs1))) root_probs

/-- `rel_argmax` (nn.py 1868-1894).  Modelled from the spec: the constants
`Vocab.PAD` and `Vocab.ROOT` live in `lib/vocab.py`, which is not among the
sources; the spec describes them as the padding label (whose probability column
is zeroed before any argmax) and the distinguished ROOT label, so they are
taken here as parameters `pad` and `root`.  The function writes
`rel_probs[:, pad] = 0` and, in the multiple-root branch,
`rel_probs[roots, root] = 0`, in place; the final matrix state is returned
beside the predictions. -/
def rel_argmax (ensure_tree : Bool) (pad root : ℕ) (rel_probs : Mat)
    (tokens_to_keep : List Bool) : List ℕ × Mat :=
  let probs0 := rel_probs.map (fun row => row.set pad 0)
  if ensure_tree then
    let length := countTrue tokens_to_keep
    let tokens := List.range length
    let rel_preds := probs0.map argmax
    let roots := relRootsOf rel_preds root length
    if roots.length < 1 then
      (rel_preds.set (argmax (tokens.map (fun t => mget probs0 t root))) root, probs0)
    else if roots.length > 1 then
      let probs1 := relZeroRoot probs0 roots root
      let new_rel_preds := roots.map (relNewPred probs1)
      let new_root := roots.getD (argmin (relRatioList probs0 roots root)) 0
      let preds1 := (roots.zip new_rel_preds).foldl (fun a p => a.set p.1 p.2) rel_preds
      (preds1.set new_root root, probs1)
    else (rel_preds, probs0)
  else (probs0.map argmax, probs0)

/-- Merge the component labels of nodes `a` and `b`. -/
def mergeLabels (labels : List ℕ) (a b : ℕ) : List ℕ :=
  let la := labels.getD a a
  let lb := labels.getD b b
  labels.map (fun x => if x = la then lb else x)

/-- `scipy.sparse.csgraph.connected_components(coo2, directed=True,
connection='weak')` at nn.py 1785-1786: the number of weakly connected
components of the functional graph `i -> preds[i]` on nodes `0..length-1`,
computed by label merging along the edges. -/
def ccCountWeak (preds : List ℕ) (length : ℕ) : ℕ :=
  let labels := (List.range length).foldl
    (fun l i => mergeLabels l i (preds.getD i 0)) (List.range length)
  labels.dedup.length

/-- Augmented root matrix (nn.py 1803-1806): `root_probs = np.diag(parse_probs)`;
the diagonal of `parse_probs` is zeroed (`* (1 - np.eye(n))`); `np.hstack` puts
the root probabilities in front as column 0; `np.vstack` prepends an all-zero
row (the virtual super-root).  The source builds this from the full masked
matrix, whose dimension is the padded sentence size `n = parse_probs.shape[0]`. -/
def augMatrix (P : Mat) : Mat :=
  let n := P.length
  let root_probs := (List.range n).map (fun i => mget P i i)
  let no_roots := P.mapIdx (fun i row => row.mapIdx (fun j x => if i = j then 0 else x))
  let aug1 := List.zipWith (fun rp row => rp :: row) root_probs no_roots
  List.replicate (n + 1) (0 : ℚ) :: aug1

/-- Elementwise negation (`-parse_probs_roots_aug`, nn.py 1807). -/
def negMat (M : Mat) : Mat := M.map (List.map (fun x => -x))

/-- Row-major list of the stored (nonzero) entries of a dense matrix, as
scipy's dense-to-CSR conversion produces them: `(weight, row, col)`. -/
def storedEdges (M : Mat) : List (ℚ × ℕ × ℕ) :=
  (M.mapIdx (fun i row =>
    (row.mapIdx (fun j w => (w, i, j))).filter (fun e => e.1 != 0))).flatten

/-- Stable insertion of an edge into a weight-sorted edge list (equal weights
keep their original relative order). -/
def insertEdge (e : ℚ × ℕ × ℕ) : List (ℚ × ℕ × ℕ) → List (ℚ × ℕ × ℕ)
  | [] => [e]
  | f :: fs => if e.1 < f.1 then e :: f :: fs else f :: insertEdge e fs

/-- Sort edges by weight ascending (stable). -/
def sortEdges (l : List (ℚ × ℕ × ℕ)) : List (ℚ × ℕ × ℕ) := l.foldr insertEdge []

/-- Kruskal scan: keep an edge iff its endpoints lie in different components,
merging the components of kept edges. -/
def kruskalGo (labels : List ℕ) : List (ℚ × ℕ × ℕ) → List (ℚ × ℕ × ℕ)
  | [] => []
  | e :: es =>
    let la := labels.getD e.2.1 e.2.1
    let lb := labels.getD e.2.2 e.2.2
    if la = lb then kruskalGo labels es
    else e :: kruskalGo (labels.map (fun x => if x = la then lb else x)) es

/-- `scipy.sparse.csgraph.minimum_spanning_tree` (nn.py 1807); see the module
docstring: Kruskal over the stored entries of the dense matrix, each stored
entry being one undirected edge; zero entries are non-edges; every kept edge
stays at the position it was stored at. -/
def minimum_spanning_tree (M : Mat) : Mat :=
  let kept := kruskalGo (List.range M.length) (sortEdges (storedEdges M))
  kept.foldl (fun A e => mset A e.2.1 e.2.2 e.1) (zeros M.length M.length)

/-- Decoding of the spanning-tree matrix (nn.py 1808-1812): take rows
`1..length`; column 0 holds the root weight, which the fancy assignment
`mst_arr[tokens, tokens] = roots` writes onto the diagonal of columns
`1..length`; then a row-wise `np.argmin` picks each token's head. -/
def mstDecode (mstM : Mat) (length : ℕ) : List ℕ :=
  (List.range length).map (fun i =>
    let row := mstM.getD (i + 1) []
    argmin ((List.range length).map
      (fun j => if j = i then row.getD 0 0 else row.getD (j + 1) 0)))

/-- Greedy head assignment (nn.py 1754-1755): mask the columns, then row-wise
argmax. -/
def greedyPreds (P0 : Mat) (keep : List Bool) : List ℕ := (maskCols P0 keep).map argmax

/-- Root-count normalization step of `parse_argmax` (nn.py 1756-1773):
dispatch on the number of self-headed valid tokens; the matrix component is
the (possibly written-to) `parse_probs` seen by the rest of `parse_argmax`. -/
def rootNormalize (preds : List ℕ) (P : Mat) (length : ℕ) : List ℕ × Mat :=
  let roots := rootsOf preds length
  if roots.length < 1 then (ensure_gt_one_root preds P (List.range length), P)
  else if roots.length > 1 then ensure_lt_two_root preds P roots (List.range length)
  else (preds, P)

/-- Condition of the diagnostic print at nn.py 1787: the spectral flags and the
weak-connectivity count disagree about a structural violation. -/
def parseLogCond (cc : ℕ) (n_cycles len_2_cycles : ℤ) : Bool :=
  (decide (1 < cc) && (n_cycles == 0) && (len_2_cycles == 0)) ||
    ((cc == 1) && (decide (0 < n_cycles) || decide (0 < len_2_cycles)))

/-- Condition under which the MST repair runs (nn.py 1802): Python truthiness
of `not self.svd_tree or len_2_cycles or n_cycles`.  It never consults the
weak-connectivity count. -/
def parseRepairCond (svd_tree : Bool) (n_cycles len_2_cycles : ℤ) : Bool :=
  !svd_tree || (len_2_cycles != 0) || (n_cycles != 0)

/-- Whether `parse_argmax` prints the detector-disagreement diagnostic
(nn.py 1785-1800).  The print is computed from the post-normalization
predictions; it only reports, never alters the result or raises. -/
def parse_argmax_logs (ensure_tree : Bool) (P0 : Mat) (keep : List Bool)
    (n_cycles len_2_cycles : ℤ) : Bool :=
  let length := countTrue keep
  ensure_tree && parseLogCond
    (ccCountWeak (rootNormalize (greedyPreds P0 keep) (maskCols P0 keep) length).1 length)
    n_cycles len_2_cycles

/-- Return value of `parse_argmax`: the predictions and the 0/1 root-count
violation flags of nn.py 1758-1759. -/
structure ParseOut where
  parse_preds : List ℕ
  roots_lt : Bool
  roots_gt : Bool
deriving Repr, DecidableEq

/-- `parse_argmax` (nn.py 1748-1864).  `n_cycles` and `len_2_cycles` default to
`-1` in the source (Python-truthy), so by default the MST repair always runs
when `ensure_tree` is set.  The MST is built from the matrix state left by the
normalization step (`ensure_lt_two_root` zeroes root self-scores in place). -/
def parse_argmax (ensure_tree svd_tree : Bool) (parse_probs : Mat)
    (tokens_to_keep : List Bool) (n_cycles len_2_cycles : ℤ) : ParseOut :=
  let length := countTrue tokens_to_keep
  let P := maskCols parse_probs tokens_to_keep
  let preds0 := P.map argmax
  let roots := rootsOf preds0 length
  let roots_lt := decide (roots.length < 1)
  let roots_gt := decide (1 < roots.length)
  if ensure_tree then
    let st := rootNormalize preds0 P length
    if parseRepairCond svd_tree n_cycles len_2_cycles then
      ⟨mstDecode (minimum_spanning_tree (negMat (augMatrix st.2))) length,
        roots_lt, roots_gt⟩
    else ⟨st.1, roots_lt, roots_gt⟩
  else ⟨preds0, roots_lt, roots_gt⟩

/-- Exact rank of a rational matrix by Gaussian elimination (fuel = column
count).  Modelling note: the source computes a numerical SVD rank (the count
of singular values above a tolerance); in exact arithmetic, whenever every
nonzero singular value exceeds the tolerance that count equals the true rank,
which row reduction computes. -/
def rankGo : ℕ → List (List ℚ) → ℕ
  | 0, _ => 0
  | fuel + 1, rows =>
    match rows.find? (fun r => r.headD 0 != 0) with
    | none => rankGo fuel (rows.map List.tail)
    | some p =>
      1 + rankGo fuel ((rows.erase p).map
        (fun r => List.zipWith (fun x y => x - (r.headD 0 / p.headD 0) * y) r.tail p.tail))

/-- Exact matrix rank (see `rankGo`). -/
def rankQ (M : Mat) : ℕ := rankGo (M.headD []).length M

/-- Trace of a square matrix. -/
def traceOf (M : Mat) : ℚ := ((List.range M.length).map (fun i => mget M i i)).sum

/-- Laplacian built by `check_cycles_svd` (nn.py 1692-1702): for each of the
first `length` predictions write `-1` at `[i, p]` and `[p, i]` unless `i = p`
(the root self-loop is excluded); then place the negated column sums
(`degrees = -np.sum(laplacian, axis=0)`) on the diagonal. -/
def buildLap (preds : List ℕ) (length : ℕ) : Mat :=
  let L1 := (List.range length).foldl
    (fun M i =>
      let p := preds.getD i 0
      if i ≠ p then mset (mset M i p (-1)) p i (-1) else M)
    (zeros length length)
  let degrees := (List.range length).map
    (fun i => -((List.range length).map (fun j => mget L1 j i)).sum)
  (List.range length).foldl (fun M i => mset M i i (degrees.getD i 0)) L1

/-- Directed adjacency built by `check_cycles_svd` for the length-2-cycle test
(nn.py 1707-1710): over the FULL predictions array (`len(parse_preds)`, not
`length`), self-loops excluded. -/
def fullAdj (preds : List ℕ) : Mat :=
  (List.range preds.length).foldl
    (fun M i => let p := preds.getD i 0; if i ≠ p then mset M i p 1 else M)
    (zeros preds.length preds.length)

/-- `check_cycles_svd` (nn.py 1677-1715): returns
`(int(len_2_cycles), int(has_any_cycle))`.  The numerical rank — the count of
singular values above the fixed `1e-15` threshold of line 1705 — is modelled
as the exact rank `rankQ`. -/
def check_cycles_svd (preds : List ℕ) (length : ℕ) : ℕ × ℕ :=
  let L := buildLap preds length
  let adj := fullAdj preds
  let len2 := decide (0 < ((List.range preds.length).map (fun i =>
      ((List.range preds.length).map (fun j => mget adj i j * mget adj j i)).sum)).sum)
  ((if len2 then 1 else 0),
    (if (1/2 : ℚ) * traceOf L ≥ (rankQ L : ℚ) + 1 then 1 else 0))

/-- float32 machine epsilon `np.finfo(np.float32).eps = 2^-23` (the module
constant `float32_eps` used at nn.py 1590). -/
def float32_eps : ℚ := 1 / 2 ^ 23

/-- The fixed singular-value threshold of `check_cycles_svd`, nn.py 1705:
`rank = np.sum(np.greater(e, 1e-15))`. -/
def check_cycles_svd_tol : ℚ := 1 / 10 ^ 15

/-- The singular-value threshold of the batched `compute_cycles`, nn.py 1590:
`tol = tf.cast(tf.reduce_max(tf.shape(laplacian)), tf.float32) * float32_eps`. -/
def compute_cycles_tol (maxDim : ℕ) : ℚ := (maxDim : ℚ) * float32_eps

/-- Modelled from the spec: the rank tolerance the spec asserts for both cycle
detectors, `max_dimension * machine_epsilon` (not scaled by the largest
singular value). -/
def specRankTol (maxDim : ℕ) : ℚ := (maxDim : ℚ) * float32_eps

/-- One-hot of the row argmax (`tf.scatter_nd` over `max_vals`, nn.py
1558-1561, one sentence): the `(b, i)` scatter indices are distinct, so the
scatter is this indicator. -/
def scatterArgmax (logits : Mat) (bucket : ℕ) : Mat :=
  (List.range bucket).map (fun i => (List.range bucket).map
    (fun j => if argmax (logits.getD i []) = j then (1 : ℚ) else 0))

/-- Multiplication by `tokens_to_keep3D` (shape `[batch, bucket, 1]`): zeroes
the rows of invalid tokens. -/
def maskRows (M : Mat) (keep : List Bool) : Mat :=
  M.mapIdx (fun i row => row.map (fun x => if keep.getD i false then x else 0))

/-- `tf.matrix_set_diag(·, zeros)` (nn.py 1567). -/
def zeroDiag (M : Mat) : Mat := M.mapIdx (fun i row => row.set i 0)

/-- Transpose of a square matrix of dimension `n`. -/
def transposeM (M : Mat) (n : ℕ) : Mat :=
  (List.range n).map (fun i => (List.range n).map (fun j => mget M j i))

/-- `tf.cast(tf.logical_or(A, B), tf.float32)` elementwise on `n × n`. -/
def orMat (A B : Mat) (n : ℕ) : Mat :=
  (List.range n).map (fun i => (List.range n).map (fun j =>
    if mget A i j ≠ 0 ∨ mget B i j ≠ 0 then (1 : ℚ) else 0))

/-- One sentence of the batched `compute_cycles` (nn.py 1541-1619): adjacency
from the row argmax, padding rows zeroed, diagonal zeroed; symmetrized by OR
with the row-masked transpose; degrees are the column sums (`axis=1` of the
batched tensor); Laplacian `matrix_set_diag(-undirected, degrees)`; reports
`(n_cycles, len_2_cycles)` where `n_cycles = (0.5 * trace >= rank + 1)` and
`len_2_cycles = (sum(adj * adj^T) > 0)`.  The SVD rank with tolerance
`compute_cycles_tol` is modelled as the exact rank `rankQ`. -/
def compute_cycles_sentence (logits : Mat) (keep : List Bool) (bucket : ℕ) :
    Bool × Bool :=
  let adj := zeroDiag (maskRows (scatterArgmax logits bucket) keep)
  let undirected := orMat adj (maskRows (transposeM adj bucket) keep) bucket
  let degrees := (List.range bucket).map (fun j =>
    ((List.range bucket).map (fun i => mget undirected i j)).sum)
  let l_trace := degrees.sum
  let laplacian := (negMat undirected).mapIdx (fun i row => row.set i (degrees.getD i 0))
  let pairs_sum := ((List.range bucket).map (fun i =>
    ((List.range bucket).map (fun j => mget adj i j * mget adj j i)).sum)).sum
  (decide ((1/2 : ℚ) * l_trace ≥ (rankQ laplacian : ℚ) + 1), decide (0 < pairs_sum))

/-- The batched `compute_cycles`: every TF op in it acts independently along
the batch axis, so the batch result is the per-sentence core mapped over the
batch. -/
def compute_cycles (logitsB : List Mat) (keepB : List (List Bool)) (bucket : ℕ) :
    List (Bool × Bool) :=
  List.zipWith (fun l k => compute_cycles_sentence l k bucket) logitsB keepB

/-- The scatter `tf.scatter_nd(idx, ones, ...)` of `gen_targets_mask`
(nn.py 1495-1497): `targets_mask[b, i, targets[b][i]] = 1`; the `(b, i)` index
pairs are distinct, so the scatter is this indicator. -/
def scatterTargets (targets : List (List ℕ)) (batch bucket : ℕ) : List Mat :=
  (List.range batch).map (fun b => (List.range bucket).map (fun i =>
    (List.range bucket).map (fun j =>
      if (targets.getD b []).getD i 0 = j then (1 : ℚ) else 0)))

/-- The masked target adjacency tensor of `gen_targets_mask` (nn.py
1495-1498): the scatter, then `targets_mask *= self.tokens_to_keep3D`
(shape `[batch, bucket, 1]`, zeroing padding rows). -/
def targetsMaskOf (targets : List (List ℕ)) (keep : List (List Bool))
    (batch bucket : ℕ) : List Mat :=
  (scatterTargets targets batch bucket).mapIdx
    (fun b M => M.mapIdx (fun i row => row.map
      (fun x => if (keep.getD b []).getD i false then x else 0)))

/-- `gen_targets_mask` (nn.py 1494-1503): builds the target adjacency mask and
— via `tf.assert_equal` under `tf.control_dependencies` — asserts that every
sentence's diagonal (`tf.matrix_diag_part`) sums to exactly one; a failing
assertion aborts the run, so the model returns `Except`. -/
def gen_targets_mask (targets : List (List ℕ)) (keep : List (List Bool))
    (batch bucket : ℕ) : Except String (List Mat) :=
  let targets_mask := targetsMaskOf targets keep batch bucket
  if (List.range batch).all (fun b =>
      ((List.range bucket).map (fun i => mget (targets_mask.getD b []) i i)).sum == 1)
  then .ok targets_mask
  else .error "assert_equal failed: target root count differs from one"

/-- Probability matrix on which the MST repair path of `parse_argmax` returns
a non-tree.  All stored weights of the negated augmented matrix built from it
are pairwise distinct, so the Kruskal tie-break order is immaterial. -/
def cexProbs : Mat := [[1/2, 9/10, 7/10], [4/5, 1/50, 1/10], [3/5, 11/100, 3/100]]

/-- Total negated-probability cost of a head assignment: minus the probability
of each valid token's chosen head (the diagonal entry for a self-headed root). -/
def assignCost (P : Mat) (a : List ℕ) (length : ℕ) : ℚ :=
  ((List.range length).map (fun i => -(mget P i (a.getD i 0)))).sum

/-- `k`-fold head-following iteration of an assignment. -/
def iterHead (a : List ℕ) : ℕ → ℕ → ℕ
  | 0, i => i
  | k + 1, i => iterHead a k (a.getD i 0)

/-- A single-rooted spanning arborescence over tokens `0..n-1`: exactly one
self-headed token, all heads in range, every token reaches the root. -/
def isArbor (a : List ℕ) (n : ℕ) : Bool :=
  ((rootsOf a n).length == 1) &&
    (List.range n).all (fun i => a.getD i 0 < n) &&
    (List.range n).all (fun i => (rootsOf a n).getD 0 0 == iterHead a n i)

/-- All head-assignment lists of length `k` with entries below `n`. -/
def allAssignGo (n : ℕ) : ℕ → List (List ℕ)
  | 0 => [[]]
  | k + 1 => ((List.range n).map (fun h => (allAssignGo n k).map (fun a => h :: a))).flatten

/-- All head assignments over `n` tokens. -/
def allAssign (n : ℕ) : List (List ℕ) := allAssignGo n n

/-- Minimum total negated-probability cost over all single-rooted spanning
arborescences of `n` tokens (exhaustive enumeration). -/
def minArbCost (P : Mat) (n : ℕ) : ℚ :=
  ((((allAssign n).filter (fun a => isArbor a n)).map (fun a => assignCost P a n)).min?).getD 0

/-- Greedy assignment with one root and a 2-cycle, used to show the repair
decision ignores the combinatorial connectivity result. -/
def cexProbsCyc : Mat := [[9/10, 1/20, 1/20], [1/20, 1/20, 9/10], [1/20, 9/10, 1/20]]

/-- Undirected adjacency of the assignment graph (root self-loop excluded):
`i ~ j` iff one of them is the other's head. -/
def adjacentB (preds : List ℕ) (i j : ℕ) : Bool :=
  (i != j) && ((preds.getD i 0 == j) || (preds.getD j 0 == i))

/-- Degree of node `i` in the undirected assignment graph on `length` nodes. -/
def degOf (preds : List ℕ) (length i : ℕ) : ℕ :=
  ((List.range length).filter (fun j => adjacentB preds i j)).length

/-- Entry of the Laplacian `D - A` of the undirected assignment graph. -/
def lapSpec (preds : List ℕ) (length i j : ℕ) : ℚ :=
  if i = j then (degOf preds length i : ℚ) else if adjacentB preds i j then -1 else 0

/-- The Laplacian of the undirected assignment graph, written entrywise. -/
def lapSpecMat (preds : List ℕ) (length : ℕ) : Mat :=
  (List.range length).map (fun i => (List.range length).map (fun j => lapSpec preds length i j))

/-- Square-dimension bookkeeping for list matrices. -/
def dimsOK (M : Mat) (n : ℕ) : Prop := M.length = n ∧ ∀ row ∈ M, row.length = n

/-- The edge-writing pass of `buildLap` (nn.py 1693-1698), with the `let`
bindings inlined. -/
def lapEdgesFold (preds : List ℕ) (length : ℕ) : Mat :=
  (List.range length).foldl
    (fun M k => if k ≠ preds.getD k 0
      then mset (mset M k (preds.getD k 0) (-1)) (preds.getD k 0) k (-1) else M)
    (zeros length length)

/-- The degrees `-np.sum(laplacian, axis=0)` of `buildLap` (nn.py 1700). -/
def lapDegrees (preds : List ℕ) (length : ℕ) : List ℚ :=
  (List.range length).map
    (fun i => -((List.range length).map (fun j => mget (lapEdgesFold preds length) j i)).sum)

/-- Directed adjacency predicate of `check_cycles_svd`'s 2-cycle test
(nn.py 1707-1710): token `a` heads to `b ≠ a`. -/
def dirAdjB (preds : List ℕ) (a b : ℕ) : Bool :=
  (a != b) && (preds.getD a 0 == b)

/-- Directed adjacency of the batched detector (nn.py 1558-1567): token `i` is
valid and its row argmax is `j ≠ i`. -/
def batchAdjB (logits : Mat) (keep : List Bool) (i j : ℕ) : Bool :=
  (i != j) && keep.getD i false && (argmax (logits.getD i []) == j)

/-- The row-mask-weighted symmetrization `logical_or(adj, keep3D * adjᵀ)`
(nn.py 1570-1572). -/
def batchUndirB (logits : Mat) (keep : List Bool) (i j : ℕ) : Bool :=
  batchAdjB logits keep i j || (keep.getD i false && batchAdjB logits keep j i)

/-- Column degree of the batched undirected adjacency (nn.py 1575). -/
def batchDeg (logits : Mat) (keep : List Bool) (bucket j : ℕ) : ℕ :=
  ((List.range bucket).filter (fun i => batchUndirB logits keep i j)).length

/-- Entry of the Laplacian the batched detector assembles (nn.py 1578-1582). -/
def batchLapSpec (logits : Mat) (keep : List Bool) (bucket i j : ℕ) : ℚ :=
  if i = j then (batchDeg logits keep bucket i : ℚ)
  else if batchUndirB logits keep i j then -1 else 0

/-- The batched detector's Laplacian, written entrywise. -/
def batchLapSpecMat (logits : Mat) (keep : List Bool) (bucket : ℕ) : Mat :=
  (List.range bucket).map (fun i => (List.range bucket).map
    (fun j => batchLapSpec logits keep bucket i j))

/-- The directed adjacency matrix of one sentence of the batched detector. -/
def batchAdjM (logits : Mat) (keep : List Bool) (bucket : ℕ) : Mat :=
  zeroDiag (maskRows (scatterArgmax logits bucket) keep)

/-- The symmetrized adjacency matrix of one sentence of the batched detector. -/
def batchUndirM (logits : Mat) (keep : List Bool) (bucket : ℕ) : Mat :=
  orMat (batchAdjM logits keep bucket)
    (maskRows (transposeM (batchAdjM logits keep bucket) bucket) keep) bucket

theorem argmaxGo_spec (xs : List ℚ) (bi i : ℕ) (bv : ℚ) :
    (argmaxGo xs bi bv i = bi ∧ ∀ k < xs.length, xs.getD k 0 ≤ bv) ∨
    (∃ k < xs.length, argmaxGo xs bi bv i = i + k ∧ bv < xs.getD k 0 ∧
      (∀ m < xs.length, xs.getD m 0 ≤ xs.getD k 0) ∧
      (∀ m < k, xs.getD m 0 < xs.getD k 0)) := by
  induction xs generalizing bi i bv with
  | nil => exact Or.inl ⟨rfl, by intro k hk; simp at hk⟩
  | cons x xs ih =>
    by_cases hx : bv < x
    · simp only [argmaxGo, if_pos hx]
      rcases ih i (i + 1) x with ⟨heq, hle⟩ | ⟨k, hk, heq, hlt, hmax, hfirst⟩
      · refine Or.inr ⟨0, by simp, ?_, ?_, ?_, ?_⟩
        · simpa using heq
        · simpa using hx
        · intro m hm
          cases m with
          | zero => simp
          | succ m =>
            simp only [List.length_cons, Nat.succ_lt_succ_iff] at hm
            simpa using hle m hm
        · intro m hm; omega
      · have hxval : x < xs.getD k 0 := hlt
        refine Or.inr ⟨k + 1, by simpa using Nat.succ_lt_succ hk, ?_, ?_, ?_, ?_⟩
        · simpa [Nat.add_assoc, Nat.add_comm 1 k] using heq
        · exact lt_trans hx (by simpa using hxval)
        · intro m hm
          cases m with
          | zero => simpa using le_of_lt hxval
          | succ m =>
            simp only [List.length_cons, Nat.succ_lt_succ_iff] at hm
            simpa using hmax m hm
        · intro m hm
          cases m with
          | zero => simpa using hxval
          | succ m =>
            simp only [Nat.succ_lt_succ_iff] at hm
            simpa using hfirst m hm
    · simp only [argmaxGo, if_neg hx]
      push_neg at hx
      rcases ih bi (i + 1) bv with ⟨heq, hle⟩ | ⟨k, hk, heq, hlt, hmax, hfirst⟩
      · refine Or.inl ⟨heq, ?_⟩
        intro m hm
        cases m with
        | zero => simpa using hx
        | succ m =>
          simp only [List.length_cons, Nat.succ_lt_succ_iff] at hm
          simpa using hle m hm
      · have hxval : x < xs.getD k 0 := lt_of_le_of_lt hx hlt
        refine Or.inr ⟨k + 1, by simpa using Nat.succ_lt_succ hk, ?_, ?_, ?_, ?_⟩
        · simpa [Nat.add_assoc, Nat.add_comm 1 k] using heq
        · simpa using hlt
        · intro m hm
          cases m with
          | zero => simpa using le_of_lt hxval
          | succ m =>
            simp only [List.length_cons, Nat.succ_lt_succ_iff] at hm
            simpa using hmax m hm
        · intro m hm
          cases m with
          | zero => simpa using hxval
          | succ m =>
            simp only [Nat.succ_lt_succ_iff] at hm
            simpa using hfirst m hm

/-- Full specification of `argmax` on a nonempty list: the result is in range,
attains the maximum, and is the first index doing so. -/
theorem argmax_spec (l : List ℚ) (h : l ≠ []) :
    argmax l < l.length ∧ (∀ j < l.length, l.getD j 0 ≤ l.getD (argmax l) 0) ∧
      (∀ j < argmax l, l.getD j 0 < l.getD (argmax l) 0) := by
  cases l with
  | nil => exact absurd rfl h
  | cons x xs =>
    rcases argmaxGo_spec xs 0 1 x with ⟨heq, hle⟩ | ⟨k, hk, heq, hlt, hmax, hfirst⟩
    · refine ⟨?_, ?_, ?_⟩
      · simp [argmax, heq]
      · intro j hj
        simp only [argmax, heq]
        cases j with
        | zero => simp
        | succ j =>
          simp only [List.length_cons, Nat.succ_lt_succ_iff] at hj
          simpa using hle j hj
      · intro j hj; simp [argmax, heq] at hj
    · refine ⟨?_, ?_, ?_⟩
      · simp only [argmax, heq, List.length_cons]; omega
      · intro j hj
        simp only [argmax, heq]
        have hval : (x :: xs).getD (1 + k) 0 = xs.getD k 0 := by
          simp [Nat.add_comm 1 k]
        rw [hval]
        cases j with
        | zero => simpa using le_of_lt hlt
        | succ j =>
          simp only [List.length_cons, Nat.succ_lt_succ_iff] at hj
          simpa using hmax j hj
      · intro j hj
        simp only [argmax, heq] at hj ⊢
        have hval : (x :: xs).getD (1 + k) 0 = xs.getD k 0 := by
          simp [Nat.add_comm 1 k]
        rw [hval]
        cases j with
        | zero => simpa using hlt
        | succ j =>
          have hjk : j < k := by omega
          simpa using hfirst j hjk

theorem getD_map_neg (l : List ℚ) (j : ℕ) :
    (l.map (fun x => -x)).getD j 0 = -(l.getD j 0) := by
  induction l generalizing j with
  | nil => simp
  | cons x xs ih => cases j with
    | zero => simp
    | succ j => simpa using ih j

/-- Full specification of `argmin` on a nonempty list. -/
theorem argmin_spec (l : List ℚ) (h : l ≠ []) :
    argmin l < l.length ∧ (∀ j < l.length, l.getD (argmin l) 0 ≤ l.getD j 0) ∧
      (∀ j < argmin l, l.getD (argmin l) 0 < l.getD j 0) := by
  have hne : l.map (fun x => -x) ≠ [] := by
    intro hc; exact h (List.map_eq_nil_iff.mp hc)
  obtain ⟨h1, h2, h3⟩ := argmax_spec (l.map (fun x => -x)) hne
  simp only [List.length_map] at h1
  refine ⟨h1, ?_, ?_⟩
  · intro j hj
    have := h2 j (by simpa using hj)
    rw [getD_map_neg, getD_map_neg] at this
    unfold argmin
    linarith
  · intro j hj
    have := h3 j hj
    rw [getD_map_neg, getD_map_neg] at this
    unfold argmin
    linarith

section Helpers

variable {α : Type _} {β : Type _} {γ : Type _}

theorem getD_set_self (l : List α) (i : ℕ) (v d : α) (h : i < l.length) :
    (l.set i v).getD i d = v := by
  simp [List.getD_eq_getElem?_getD, List.getElem?_set_self h]

theorem getD_set_ne (l : List α) {i j : ℕ} (v d : α) (h : i ≠ j) :
    (l.set i v).getD j d = l.getD j d := by
  simp [List.getD_eq_getElem?_getD, List.getElem?_set_ne h]

theorem getD_set_out (l : List α) {i : ℕ} (v d : α) (h : l.length ≤ i) :
    (l.set i v).getD i d = l.getD i d := by
  rw [List.set_eq_of_length_le h]

theorem getD_range (n k : ℕ) (h : k < n) (d : ℕ) : (List.range n).getD k d = k := by
  simp [List.getD_eq_getElem?_getD, List.getElem?_range h]

theorem getD_map_lt (f : α → β) (l : List α) {k : ℕ} (h : k < l.length) (d : β) (d2 : α) :
    (l.map f).getD k d = f (l.getD k d2) := by
  simp [List.getD_eq_getElem?_getD, List.getElem?_map,
    List.getElem?_eq_getElem h]

theorem getD_zipWith (f : α → β → γ) (a : List α) (b : List β) {k : ℕ}
    (ha : k < a.length) (hb : k < b.length) (d : γ) (da : α) (db : β) :
    (List.zipWith f a b).getD k d = f (a.getD k da) (b.getD k db) := by
  induction a generalizing b k with
  | nil => simp at ha
  | cons x xs ih =>
    cases b with
    | nil => simp at hb
    | cons y ys =>
      cases k with
      | zero => simp
      | succ k =>
        simp only [List.length_cons, Nat.succ_lt_succ_iff] at ha hb
        simpa using ih ys ha hb

theorem getD_zip {α β : Type _} (a : List α) (b : List β) {k : ℕ}
    (ha : k < a.length) (hb : k < b.length) (da : α) (db : β) :
    (a.zip b).getD k (da, db) = (a.getD k da, b.getD k db) :=
  getD_zipWith Prod.mk a b ha hb (da, db) da db

theorem length_mset (M : Mat) (a b : ℕ) (v : ℚ) : (mset M a b v).length = M.length := by
  simp [mset]

theorem getDrow_mset (M : Mat) (a b : ℕ) (v : ℚ) {i : ℕ} (h : i ≠ a) :
    (mset M a b v).getD i [] = M.getD i [] := by
  unfold mset
  exact getD_set_ne M _ _ (fun hc => h hc.symm)

theorem mget_mset_zero (M : Mat) (a b i j : ℕ) :
    mget (mset M a b 0) i j = if i = a ∧ j = b then 0 else mget M i j := by
  by_cases hia : i = a
  · subst hia
    by_cases hlen : i < M.length
    · have hrow : (mset M i b 0).getD i [] = (M.getD i []).set b 0 := by
        unfold mset
        exact getD_set_self M i _ [] hlen
      by_cases hjb : j = b
      · subst hjb
        have hcond : i = i ∧ j = j := ⟨rfl, rfl⟩
        rw [if_pos hcond]
        by_cases hjlen : j < (M.getD i []).length
        · unfold mget
          rw [hrow, getD_set_self _ _ _ _ hjlen]
        · push_neg at hjlen
          unfold mget
          rw [hrow, List.set_eq_of_length_le hjlen]
          rw [List.getD_eq_getElem?_getD, List.getElem?_eq_none hjlen]
          rfl
      · rw [if_neg (fun hc => hjb hc.2)]
        unfold mget
        rw [hrow]
        exact getD_set_ne _ _ _ (fun hc => hjb hc.symm)
    · push_neg at hlen
      have hmm : mset M i b 0 = M := by
        unfold mset
        exact List.set_eq_of_length_le hlen
      rw [hmm]
      by_cases hjb : j = b
      · subst hjb
        have hcond : i = i ∧ j = j := ⟨rfl, rfl⟩
        rw [if_pos hcond]
        have hnil : M.getD i [] = [] := by
          rw [List.getD_eq_getElem?_getD, List.getElem?_eq_none hlen]
          rfl
        unfold mget
        rw [hnil]
        rfl
      · rw [if_neg (fun hc => hjb hc.2)]
  · unfold mget
    rw [getDrow_mset M a b 0 hia, if_neg (fun hc => hia hc.1)]

theorem mget_mset (M : Mat) (a b : ℕ) (v : ℚ) (i j : ℕ)
    (ha : a < M.length) (hb : b < (M.getD a []).length) :
    mget (mset M a b v) i j = if i = a ∧ j = b then v else mget M i j := by
  by_cases hia : i = a
  · subst hia
    have hrow : (mset M i b v).getD i [] = (M.getD i []).set b v := by
      unfold mset
      exact getD_set_self M i _ [] ha
    by_cases hjb : j = b
    · subst hjb
      have hcond : i = i ∧ j = j := ⟨rfl, rfl⟩
      rw [if_pos hcond]
      unfold mget
      rw [hrow]
      exact getD_set_self _ _ _ _ hb
    · rw [if_neg (fun hc => hjb hc.2)]
      unfold mget
      rw [hrow]
      exact getD_set_ne _ _ _ (fun hc => hjb hc.symm)
  · unfold mget
    rw [getDrow_mset M a b v hia, if_neg (fun hc => hia hc.1)]

/-- Reading after a fold that zeroes entry `(r, c r)` for every `r` in `rs`. -/
theorem mget_foldl_msetzero (rs : List ℕ) (c : ℕ → ℕ) (P : Mat) (i j : ℕ) :
    mget (rs.foldl (fun M r => mset M r (c r) 0) P) i j
      = if i ∈ rs ∧ j = c i then 0 else mget P i j := by
  induction rs generalizing P with
  | nil => simp
  | cons r rs ih =>
    simp only [List.foldl_cons, ih, mget_mset_zero]
    by_cases h1 : i ∈ rs ∧ j = c i
    · simp [h1, List.mem_cons, h1.1, h1.2]
    · by_cases h2 : i = r ∧ j = c r
      · have hcc : i ∈ r :: rs ∧ j = c i := by
          refine ⟨by simp [h2.1], ?_⟩
          rw [h2.1]
          exact h2.2
        simp [h1, h2, hcc.1, hcc.2]
      · have hcc : ¬(i ∈ r :: rs ∧ j = c i) := by
          rintro ⟨hmem, hj⟩
          rcases List.mem_cons.mp hmem with hir | hirs
          · exact h2 ⟨hir, by rw [← hir]; exact hj⟩
          · exact h1 ⟨hirs, hj⟩
        rw [if_neg h1, if_neg h2, if_neg hcc]

theorem length_foldl_msetzero (rs : List ℕ) (c : ℕ → ℕ) (P : Mat) :
    (rs.foldl (fun M r => mset M r (c r) 0) P).length = P.length := by
  induction rs generalizing P with
  | nil => rfl
  | cons r rs ih => simp [List.foldl_cons, ih, length_mset]

theorem length_foldl_set (ps : List (ℕ × ℕ)) (l : List ℕ) :
    (ps.foldl (fun a p => a.set p.1 p.2) l).length = l.length := by
  induction ps generalizing l with
  | nil => rfl
  | cons p ps ih => simp [List.foldl_cons, ih]

theorem getD_foldl_set_of_ne (ps : List (ℕ × ℕ)) (l : List ℕ) (i d : ℕ)
    (h : ∀ p ∈ ps, p.1 ≠ i) :
    (ps.foldl (fun a p => a.set p.1 p.2) l).getD i d = l.getD i d := by
  induction ps generalizing l with
  | nil => rfl
  | cons p ps ih =>
    simp only [List.foldl_cons]
    rw [ih _ (fun q hq => h q (List.mem_cons.mpr (Or.inr hq)))]
    exact getD_set_ne l _ _ (h p (List.mem_cons.mpr (Or.inl rfl)))

theorem getD_foldl_set_of_mem : ∀ (ps : List (ℕ × ℕ)) (l : List ℕ) (r hv d : ℕ),
    (ps.map Prod.fst).Nodup → (r, hv) ∈ ps → r < l.length →
    (ps.foldl (fun a p => a.set p.1 p.2) l).getD r d = hv
  | [], _, _, _, _, _, hmem, _ => by simp at hmem
  | p :: ps, l, r, hv, d, hnd, hmem, hr => by
    simp only [List.map_cons, List.nodup_cons] at hnd
    rcases List.mem_cons.mp hmem with hp | hps
    · subst hp
      simp only [List.foldl_cons]
      rw [getD_foldl_set_of_ne]
      · exact getD_set_self l r hv d hr
      · intro q hq hq1
        exact hnd.1 (List.mem_map.mpr ⟨q, hq, hq1⟩)
    · simp only [List.foldl_cons]
      exact getD_foldl_set_of_mem ps (l.set p.1 p.2) r hv d hnd.2 hps (by simpa using hr)

theorem mem_rootsOf (preds : List ℕ) (n i : ℕ) :
    i ∈ rootsOf preds n ↔ i < n ∧ preds.getD i 0 = i := by
  simp [rootsOf, List.mem_filter, List.mem_range]

theorem rootsOf_nodup (preds : List ℕ) (n : ℕ) : (rootsOf preds n).Nodup :=
  List.Nodup.filter _ (List.nodup_range n)

/-- A filter of `range n` that holds exactly at `a < n` is the singleton `[a]`. -/
theorem filter_range_eq_singleton (n a : ℕ) (p : ℕ → Bool) (ha : a < n)
    (hp : ∀ i < n, p i = true ↔ i = a) :
    (List.range n).filter p = [a] := by
  induction n with
  | zero => omega
  | succ n ih =>
    rw [List.range_succ, List.filter_append]
    by_cases han : a < n
    · rw [ih han (fun i hi => hp i (by omega))]
      have : p n = false := by
        rcases Bool.eq_false_or_eq_true (p n) with h | h
        · exact absurd ((hp n (by omega)).mp h) (by omega)
        · exact h
      simp [this]
    · have haeq : a = n := by omega
      subst haeq
      have h1 : (List.range a).filter p = [] := by
        rw [List.filter_eq_nil_iff]
        intro b hb
        rw [List.mem_range] at hb
        intro hc
        exact absurd ((hp b (by omega)).mp hc) (by omega)
      have h2 : p a = true := (hp a (by omega)).mpr rfl
      simp [h1, h2]

/-- If token `0` is a root then it heads the roots list. -/
theorem rootsOf_zero_head (preds : List ℕ) (n : ℕ) (h0 : 0 < n)
    (hp : preds.getD 0 0 = 0) :
    ∃ t, rootsOf preds n = 0 :: t := by
  obtain ⟨m, rfl⟩ : ∃ m, n = m + 1 := ⟨n - 1, by omega⟩
  unfold rootsOf
  rw [List.range_succ_eq_map, List.filter_cons]
  simp only [hp, beq_self_eq_true, if_pos]
  exact ⟨_, rfl⟩

end Helpers

section MoreHelpers

theorem getD_mapIdx_lt {α β : Type _} (f : ℕ → α → β) (l : List α) {k : ℕ}
    (h : k < l.length) (d : β) (d2 : α) :
    (l.mapIdx f).getD k d = f k (l.getD k d2) := by
  rw [List.getD_eq_getElem?_getD, List.getElem?_eq_getElem (by simpa using h)]
  simp [List.getElem_mapIdx, List.getD_eq_getElem?_getD, List.getElem?_eq_getElem h]

theorem sum_map_ite_one (l : List ℕ) (p : ℕ → Bool) :
    (l.map (fun i => if p i then (1 : ℚ) else 0)).sum = ((l.filter p).length : ℚ) := by
  induction l with
  | nil => simp
  | cons x xs ih =>
    by_cases hx : p x
    · simp [hx, ih, List.filter_cons]
      ring
    · simp [hx, ih, List.filter_cons]

end MoreHelpers

/- `Rat.add`, `Rat.mul`, `Rat.sub`, `Rat.inv` are `@[irreducible]` in the
library, which blocks `decide`'s evaluation of concrete rational arithmetic;
make them reducible for the concrete theorems below. -/

attribute [local semireducible] Rat.add Rat.mul Rat.sub Rat.inv Rat.ofScientific

section Claims

/-- C1 counterexample: with `ensure_tree` enabled, default `-1` cycle flags and
a nonnegative probability matrix with an all-ones validity mask, `parse_argmax`
returns the assignment `[1, 0, 0]`, in which zero valid tokens are their own
head (and tokens 0 and 1 form a length-2 cycle), contradicting "exactly one
valid token is its own head" and acyclicity/connectedness. -/
theorem C1_counterexample :
    (parse_argmax true false cexProbs [true, true, true] (-1) (-1)).parse_preds = [1, 0, 0] ∧
      (rootsOf (parse_argmax true false cexProbs
        [true, true, true] (-1) (-1)).parse_preds 3).length = 0 := by
  constructor
  · decide
  · decide

/-- C3 counterexample: on `cexProbs` the repair path's returned assignment has
total negated-probability cost `-23/10`, different from the minimum cost
`-19/10` over all single-rooted spanning arborescences of the 3 valid tokens
(the returned assignment is not even an arborescence). -/
theorem C3_counterexample :
    assignCost cexProbs
        (parse_argmax true false cexProbs [true, true, true] (-1) (-1)).parse_preds 3
      ≠ minArbCost cexProbs 3 := by
  decide

/-- C4 counterexample: the per-sentence eager detector `check_cycles_svd` does
not use the claimed rank tolerance: at dimension 3 the claimed tolerance
`max_dimension * float32_eps` (which the batched `compute_cycles` does use)
differs from the fixed `1e-15` threshold of nn.py 1705. -/
theorem C4_counterexample :
    check_cycles_svd_tol ≠ specRankTol 3 ∧ compute_cycles_tol 3 = specRankTol 3 := by
  constructor
  · decide
  · rfl

/-- C5 counterexample: with `svd_tree` enabled and the spectral flags claiming
no cycles, the combinatorial test finds 2 weak components (a violation), the
disagreement is logged, yet the repair does not run and `parse_argmax` returns
the cyclic assignment `[0, 2, 1]` — the combinatorial result does not
determine whether the tree-repair step runs. -/
theorem C5_counterexample :
    parse_argmax_logs true cexProbsCyc [true, true, true] 0 0 = true ∧
      parseRepairCond true 0 0 = false ∧
      (parse_argmax true true cexProbsCyc [true, true, true] 0 0).parse_preds = [0, 2, 1] ∧
      ccCountWeak [0, 2, 1] 3 = 2 := by
  refine ⟨by decide, by decide, by decide, by decide⟩

/-- C7 counterexample: `rel_argmax` writes into the probability matrix it is
passed (here the PAD column and both predicted-ROOT entries are zeroed in
place), so the caller's matrix is changed by the call. -/
theorem C7_counterexample :
    (rel_argmax true 0 1 [[5, 2], [3, 4]] [true, true]).2 ≠ [[5, 2], [3, 4]] := by
  decide

/-- C10 counterexample: on a one-token input whose token is already its own
head, `ensure_gt_one_root` changes no entry at all (the selected root is token
0, already self-headed): the output equals the input, so it is false that
exactly one entry changes on every input. -/
theorem C10_counterexample :
    ensure_gt_one_root [0] [[(1 : ℚ)]] (List.range 1) = [0] ∧
      ((List.range 1).filter (fun i =>
        !((ensure_gt_one_root [0] [[(1 : ℚ)]] (List.range 1)).getD i 0
          == ([0] : List ℕ).getD i 0))).length = 0 := by
  constructor
  · decide
  · decide

/-- The violation flags of `parse_argmax` record the greedy root count,
whatever the configuration and flags. -/
theorem parse_argmax_flags (et st : Bool) (P : Mat) (keep : List Bool) (n l2 : ℤ) :
    (parse_argmax et st P keep n l2).roots_lt
        = decide ((rootsOf ((maskCols P keep).map argmax) (countTrue keep)).length < 1) ∧
      (parse_argmax et st P keep n l2).roots_gt
        = decide (1 < (rootsOf ((maskCols P keep).map argmax) (countTrue keep)).length) := by
  unfold parse_argmax
  split
  · split
    · exact ⟨rfl, rfl⟩
    · exact ⟨rfl, rfl⟩
  · exact ⟨rfl, rfl⟩

/-- C9 (confirmed): if the greedy assignment already has exactly one
self-headed valid token, neither repair branch of the root normalization
fires — the step returns predictions and matrix unchanged — hence re-running
it on its own output is also a no-op; and the two root-violation flags of
`parse_argmax` can never both be set, so at most one branch fires per call. -/
theorem C9_normalize_noop (preds : List ℕ) (P : Mat) (length : ℕ)
    (h : (rootsOf preds length).length = 1) :
    rootNormalize preds P length = (preds, P) ∧
      rootNormalize (rootNormalize preds P length).1 (rootNormalize preds P length).2 length
          = (preds, P) ∧
      ∀ et st P0 keep n l2, ¬((parse_argmax et st P0 keep n l2).roots_lt = true ∧
        (parse_argmax et st P0 keep n l2).roots_gt = true) := by
  have h1 : rootNormalize preds P length = (preds, P) := by
    simp [rootNormalize, h]
  refine ⟨h1, by rw [h1]; exact h1, ?_⟩
  intro et st P0 keep n l2 hc
  obtain ⟨hflt, hfgt⟩ := parse_argmax_flags et st P0 keep n l2
  rw [hflt, hfgt] at hc
  have h1 := of_decide_eq_true hc.1
  have h2 := of_decide_eq_true hc.2
  omega

/-- C9 witness. -/
theorem C9_normalize_noop_witness :
    rootNormalize [0, 0] [[(1 : ℚ), 0], [1, 0]] 2 = ([0, 0], [[(1 : ℚ), 0], [1, 0]]) :=
  (C9_normalize_noop [0, 0] [[(1 : ℚ), 0], [1, 0]] 2 (by decide)).1

/-- C8 (confirmed): `gen_targets_mask` signals the assertion error exactly when
some sentence of the batch has a number of valid self-headed target tokens
(diagonal entries of the masked target adjacency) different from one;
otherwise it returns the mask and the batch proceeds. -/
theorem C8_targets_root_assert (targets : List (List ℕ)) (keep : List (List Bool))
    (batch bucket : ℕ) :
    (∃ e, gen_targets_mask targets keep batch bucket = .error e) ↔
      ∃ b < batch, ((List.range bucket).filter (fun i =>
        ((keep.getD b []).getD i false) && ((targets.getD b []).getD i 0 == i))).length ≠ 1 := by
  have hdiag : ∀ b, b < batch → ∀ i, i < bucket →
      mget ((targetsMaskOf targets keep batch bucket).getD b []) i i
        = if ((keep.getD b []).getD i false) && ((targets.getD b []).getD i 0 == i)
          then (1 : ℚ) else 0 := by
    intro b hb i hi
    have hsb : b < (scatterTargets targets batch bucket).length := by
      simp [scatterTargets, hb]
    unfold targetsMaskOf
    rw [List.getD_eq_getElem?_getD, List.getElem?_eq_getElem (by simpa using hsb)]
    simp only [List.getElem_mapIdx, Option.getD_some]
    have hscat : (scatterTargets targets batch bucket)[b]
        = (List.range bucket).map (fun i => (List.range bucket).map (fun j =>
            if (targets.getD b []).getD i 0 = j then (1 : ℚ) else 0)) := by
      unfold scatterTargets
      simp only [List.getElem_map, List.getElem_range]
    rw [hscat]
    unfold mget
    have hrow : ((List.range bucket).map (fun i => (List.range bucket).map (fun j =>
        if (targets.getD b []).getD i 0 = j then (1 : ℚ) else 0))).length = bucket := by
      simp
    rw [getD_mapIdx_lt _ _ (by simpa [hrow] using hi) [] []]
    rw [getD_map_lt _ _ (by simpa using hi) [] 0]
    rw [getD_range bucket i hi 0]
    rw [getD_map_lt _ _ (by simp [hi]) (0 : ℚ) 0]
    rw [getD_map_lt _ _ (by simpa using hi) (0 : ℚ) 0]
    rw [getD_range bucket i hi 0]
    split_ifs <;> simp_all
  have hsum : ∀ b, b < batch →
      (((List.range bucket).map (fun i =>
        mget ((targetsMaskOf targets keep batch bucket).getD b []) i i)).sum
        = (((List.range bucket).filter (fun i =>
          ((keep.getD b []).getD i false) && ((targets.getD b []).getD i 0 == i))).length : ℚ)) := by
    intro b hb
    rw [List.map_congr_left (fun i hi => hdiag b hb i (List.mem_range.mp hi))]
    exact sum_map_ite_one _ _
  unfold gen_targets_mask
  by_cases hall : (List.range batch).all (fun b =>
      ((List.range bucket).map (fun i =>
        mget ((targetsMaskOf targets keep batch bucket).getD b []) i i)).sum == 1)
  · rw [if_pos hall]
    simp only [List.all_eq_true, List.mem_range] at hall
    constructor
    · rintro ⟨e, he⟩
      exact absurd he (by simp)
    · rintro ⟨b, hb, hne⟩
      exfalso
      have := hall b hb
      rw [beq_iff_eq, hsum b hb] at this
      exact hne (by exact_mod_cast this)
  · rw [if_neg hall]
    simp only [List.all_eq_true, List.mem_range, not_forall] at hall
    constructor
    · rintro ⟨e, he⟩
      obtain ⟨b, hb, hne⟩ := hall
      refine ⟨b, hb, ?_⟩
      rw [beq_iff_eq, hsum b hb] at hne
      intro hc
      exact hne (by exact_mod_cast hc)
    · intro hex
      exact ⟨_, rfl⟩

theorem gtOneRatioList_length (preds : List ℕ) (P : Mat) (length : ℕ) :
    (gtOneRatioList preds P (List.range length)).length = length := by
  simp [gtOneRatioList]

theorem gtOneRatioList_getD (preds : List ℕ) (P : Mat) (length k : ℕ) (hk : k < length) :
    (gtOneRatioList preds P (List.range length)).getD k 0
      = mget P k k / mget P k (preds.getD k 0) := by
  unfold gtOneRatioList
  rw [getD_zipWith _ _ _ (by simpa using hk) (by simpa using hk) 0 0 0]
  rw [getD_map_lt _ _ (by simpa using hk) (0 : ℚ) 0]
  rw [getD_map_lt _ _ (by simpa using hk) (0 : ℚ) 0]
  simp [List.getD_eq_getElem?_getD, List.getElem?_range, hk]

/-- The selected new root is a valid token. -/
theorem gtOneNewRoot_lt (preds : List ℕ) (P : Mat) (length : ℕ) (h1 : 1 ≤ length) :
    gtOneNewRoot preds P (List.range length) < length := by
  unfold gtOneNewRoot
  have hlen := gtOneRatioList_length preds P length
  have hne : gtOneRatioList preds P (List.range length) ≠ [] := by
    intro hc
    rw [hc] at hlen
    simp at hlen
    omega
  have hh := (argmax_spec _ hne).1
  rw [hlen] at hh
  rw [getD_range length _ hh 0]
  exact hh

/-- The selected new root maximizes the self/chosen-head probability ratio
over the valid tokens. -/
theorem gtOneNewRoot_max (preds : List ℕ) (P : Mat) (length : ℕ) (h1 : 1 ≤ length) :
    ∀ i < length, mget P i i / mget P i (preds.getD i 0)
      ≤ mget P (gtOneNewRoot preds P (List.range length))
            (gtOneNewRoot preds P (List.range length))
          / mget P (gtOneNewRoot preds P (List.range length))
              (preds.getD (gtOneNewRoot preds P (List.range length)) 0) := by
  intro i hi
  have hlen := gtOneRatioList_length preds P length
  have hne : gtOneRatioList preds P (List.range length) ≠ [] := by
    intro hc
    rw [hc] at hlen
    simp at hlen
    omega
  obtain ⟨hb, hmax, _⟩ := argmax_spec (gtOneRatioList preds P (List.range length)) hne
  rw [hlen] at hb
  have hroot : gtOneNewRoot preds P (List.range length)
      = argmax (gtOneRatioList preds P (List.range length)) := by
    unfold gtOneNewRoot
    exact getD_range length _ hb 0
  have := hmax i (by rwa [hlen])
  rw [gtOneRatioList_getD preds P length i hi] at this
  rw [gtOneRatioList_getD preds P length _ hb] at this
  rwa [hroot]

/-- C10 (amended): `ensure_gt_one_root` writes only the selected new root's
entry, setting it to point to itself; every other token's head keeps its
value, and the probability matrix is never written (the source function does
not assign into `parse_probs`, which is why its embedding returns only the
predictions).  When the selected token was not already self-headed — in
particular in the only calling context, where no valid token is self-headed —
exactly one entry changes. -/
theorem C10_gt_one_frame (preds : List ℕ) (P : Mat) (length : ℕ)
    (h1 : 1 ≤ length) (h2 : length ≤ preds.length) :
    gtOneNewRoot preds P (List.range length) < length ∧
      ensure_gt_one_root preds P (List.range length)
        = preds.set (gtOneNewRoot preds P (List.range length))
            (gtOneNewRoot preds P (List.range length)) ∧
      (ensure_gt_one_root preds P (List.range length)).getD
          (gtOneNewRoot preds P (List.range length)) 0
        = gtOneNewRoot preds P (List.range length) ∧
      ∀ j, j ≠ gtOneNewRoot preds P (List.range length) →
        (ensure_gt_one_root preds P (List.range length)).getD j 0 = preds.getD j 0 := by
  have hb := gtOneNewRoot_lt preds P length h1
  refine ⟨hb, rfl, ?_, ?_⟩
  · exact getD_set_self preds _ _ 0 (lt_of_lt_of_le hb h2)
  · intro j hj
    exact getD_set_ne preds _ 0 (fun hc => hj hc.symm)

/-- C10 witness: the frame theorem applied to a concrete two-token input with
no self-headed token. -/
theorem C10_gt_one_frame_witness :
    ensure_gt_one_root [1, 0] [[(1 : ℚ), 2], [3, 4]] (List.range 2)
      = [1, 0].set (gtOneNewRoot [1, 0] [[(1 : ℚ), 2], [3, 4]] (List.range 2))
          (gtOneNewRoot [1, 0] [[(1 : ℚ), 2], [3, 4]] (List.range 2)) :=
  (C10_gt_one_frame [1, 0] [[(1 : ℚ), 2], [3, 4]] 2 (by decide) (by decide)).2.1

theorem mget_zeropad_ne (probs : Mat) (pad i j : ℕ) (hj : j ≠ pad) :
    mget (probs.map (fun row => row.set pad 0)) i j = mget probs i j := by
  unfold mget
  by_cases hi : i < probs.length
  · rw [getD_map_lt _ _ hi [] []]
    exact getD_set_ne _ _ _ (fun hc => hj hc.symm)
  · push_neg at hi
    have h1 : (probs.map (fun row => row.set pad 0)).getD i [] = [] := by
      rw [List.getD_eq_getElem?_getD, List.getElem?_eq_none (by simpa using hi)]
      rfl
    have h2 : probs.getD i [] = [] := by
      rw [List.getD_eq_getElem?_getD, List.getElem?_eq_none hi]
      rfl
    rw [h1, h2]

theorem mget_zeropad_self (probs : Mat) (pad i : ℕ) (hi : i < probs.length)
    (hp : pad < (probs.getD i []).length) :
    mget (probs.map (fun row => row.set pad 0)) i pad = 0 := by
  unfold mget
  rw [getD_map_lt _ _ hi [] []]
  exact getD_set_self _ _ _ _ hp

/-- The matrix returned by `rel_argmax` (ensure-tree mode) is either the
PAD-zeroed input or that with the ROOT entries of the predicted roots zeroed. -/
theorem rel_argmax_snd_cases (pad root : ℕ) (probs : Mat) (keep : List Bool) :
    (rel_argmax true pad root probs keep).2 = probs.map (fun row => row.set pad 0) ∨
      (rel_argmax true pad root probs keep).2
        = relZeroRoot (probs.map (fun row => row.set pad 0))
            ((List.range (countTrue keep)).filter
              (fun i => ((probs.map (fun row => row.set pad 0)).map argmax).getD i 0 == root))
            root := by
  simp only [rel_argmax, if_true]
  split
  · exact Or.inl rfl
  · split
    · exact Or.inr rfl
    · exact Or.inl rfl

/-- C7 (amended): the decoding functions are not all pure in their matrices.
`ensure_lt_two_root` changes the matrix it receives exactly by zeroing each
listed root's self-score; `rel_argmax` leaves every entry outside the PAD and
ROOT columns unchanged and zeroes the whole PAD column.  (`ensure_gt_one_root`
performs no matrix writes at all, and `parse_argmax` mutates only its freshly
allocated masked copy `parse_probs * tokens_to_keep`, so its own caller's
matrix is unchanged.) -/
theorem C7_matrix_frame (preds : List ℕ) (P : Mat) (roots tokens : List ℕ)
    (pad root : ℕ) (probs : Mat) (keep : List Bool) (i j : ℕ) :
    mget (ensure_lt_two_root preds P roots tokens).2 i j
        = (if i ∈ roots ∧ j = i then 0 else mget P i j) ∧
      (j ≠ pad → j ≠ root →
        mget (rel_argmax true pad root probs keep).2 i j = mget probs i j) ∧
      (i < probs.length → pad < (probs.getD i []).length →
        mget (rel_argmax true pad root probs keep).2 i pad = 0) := by
  refine ⟨?_, ?_, ?_⟩
  · show mget (zeroRootSelf P roots) i j = _
    unfold zeroRootSelf
    exact mget_foldl_msetzero roots (fun r => r) P i j
  · intro hjp hjr
    rcases rel_argmax_snd_cases pad root probs keep with hc | hc
    · rw [hc]
      exact mget_zeropad_ne probs pad i j hjp
    · rw [hc]
      unfold relZeroRoot
      rw [mget_foldl_msetzero _ (fun _ => root) _ i j, if_neg (fun hco => hjr hco.2)]
      exact mget_zeropad_ne probs pad i j hjp
  · intro hi hp
    rcases rel_argmax_snd_cases pad root probs keep with hc | hc
    · rw [hc]
      exact mget_zeropad_self probs pad i hi hp
    · rw [hc]
      unfold relZeroRoot
      rw [mget_foldl_msetzero _ (fun _ => root) _ i pad]
      split
      · rfl
      · exact mget_zeropad_self probs pad i hi hp

/-- C7 witness: the frame theorem at concrete inputs — the self-score of root
0 is zeroed by `ensure_lt_two_root`, and `rel_argmax` zeroes the PAD entry of
row 0. -/
theorem C7_matrix_frame_witness :
    mget (ensure_lt_two_root [0, 1] [[(1 : ℚ), 2], [3, 4]] [0, 1] [0, 1]).2 0 0 = 0 ∧
      mget (rel_argmax true 0 1 [[(5 : ℚ), 2], [3, 4]] [true, true]).2 0 0 = 0 := by
  constructor
  · rw [(C7_matrix_frame [0, 1] [[(1 : ℚ), 2], [3, 4]] [0, 1] [0, 1] 0 1
      [[(5 : ℚ), 2], [3, 4]] [true, true] 0 0).1]
    simp
  · exact (C7_matrix_frame [0, 1] [[(1 : ℚ), 2], [3, 4]] [0, 1] [0, 1] 0 1
      [[(5 : ℚ), 2], [3, 4]] [true, true] 0 0).2.2 (by decide) (by decide)

/-- C5 (amended): the disagreement diagnostic is pure logging — and the
repair decision reads only the `svd_tree` configuration and the two spectral
flags, never the weak-connectivity count: the returned predictions are the
MST decode exactly when `parseRepairCond` holds and otherwise the normalized
greedy assignment, while the logging condition is the separate `parseLogCond`
applied to the combinatorial count. -/
theorem C5_repair_ignores_cc (svd_tree : Bool) (P : Mat) (keep : List Bool) (n l2 : ℤ) :
    ((parse_argmax true svd_tree P keep n l2).parse_preds
        = if parseRepairCond svd_tree n l2
          then mstDecode (minimum_spanning_tree (negMat (augMatrix
            (rootNormalize ((maskCols P keep).map argmax) (maskCols P keep)
              (countTrue keep)).2))) (countTrue keep)
          else (rootNormalize ((maskCols P keep).map argmax) (maskCols P keep)
            (countTrue keep)).1) ∧
      parse_argmax_logs true P keep n l2
        = parseLogCond (ccCountWeak
            (rootNormalize ((maskCols P keep).map argmax) (maskCols P keep)
              (countTrue keep)).1 (countTrue keep)) n l2 := by
  constructor
  · unfold parse_argmax
    by_cases hrc : parseRepairCond svd_tree n l2
    · rw [if_pos hrc]
      simp only [if_true, hrc]
    · rw [if_neg hrc]
      simp only [if_true, Bool.not_eq_true] at hrc ⊢
      simp [hrc]
  · simp [parse_argmax_logs, greedyPreds]

theorem getD_mem_of_lt {α : Type _} (l : List α) {k : ℕ} (h : k < l.length) (d : α) :
    l.getD k d ∈ l := by
  rw [List.getD_eq_getElem?_getD, List.getElem?_eq_getElem h]
  exact List.getElem_mem h

theorem mget_nonneg_of_all (M : Mat) (h : ∀ row ∈ M, ∀ x ∈ row, 0 ≤ x) (i j : ℕ) :
    0 ≤ mget M i j := by
  unfold mget
  by_cases hi : i < M.length
  · have hrow : M.getD i [] ∈ M := getD_mem_of_lt M hi []
    by_cases hj : j < (M.getD i []).length
    · exact h _ hrow _ (getD_mem_of_lt _ hj 0)
    · push_neg at hj
      rw [List.getD_eq_getElem?_getD, List.getElem?_eq_none hj]
      simp
  · push_neg at hi
    rw [List.getD_eq_getElem?_getD M, List.getElem?_eq_none hi]
    simp

theorem mget_maskCols_cases (P : Mat) (keep : List Bool) (i j : ℕ) :
    mget (maskCols P keep) i j = mget P i j ∨ mget (maskCols P keep) i j = 0 := by
  unfold maskCols mget
  by_cases hi : i < P.length
  · rw [getD_map_lt _ _ hi [] []]
    by_cases hj : j < (List.zipWith (fun x b => if b then x else 0) (P.getD i []) keep).length
    · rw [List.length_zipWith] at hj
      rw [getD_zipWith _ _ _ (lt_of_lt_of_le hj (min_le_left _ _))
        (lt_of_lt_of_le hj (min_le_right _ _)) 0 0 false]
      by_cases hb : keep.getD j false
      · rw [if_pos hb]
        exact Or.inl rfl
      · rw [if_neg hb]
        exact Or.inr rfl
    · push_neg at hj
      rw [List.getD_eq_getElem?_getD _ j, List.getElem?_eq_none hj]
      exact Or.inr rfl
  · push_neg at hi
    rw [List.getD_eq_getElem?_getD _ i, List.getElem?_eq_none (by simpa using hi)]
    rw [List.getD_eq_getElem?_getD P, List.getElem?_eq_none hi]
    exact Or.inr rfl

theorem mget_maskCols_nonneg (P : Mat) (keep : List Bool)
    (h : ∀ i j, 0 ≤ mget P i j) (i j : ℕ) : 0 ≤ mget (maskCols P keep) i j := by
  rcases mget_maskCols_cases P keep i j with hc | hc
  · rw [hc]; exact h i j
  · rw [hc]

theorem length_maskCols (P : Mat) (keep : List Bool) :
    (maskCols P keep).length = P.length := by
  simp [maskCols]

theorem mget_zeroRootSelf (P : Mat) (roots : List ℕ) (i j : ℕ) :
    mget (zeroRootSelf P roots) i j = if i ∈ roots ∧ j = i then 0 else mget P i j :=
  mget_foldl_msetzero roots (fun r => r) P i j

theorem mget_zeroRootSelf_nonneg (P : Mat) (roots : List ℕ)
    (h : ∀ i j, 0 ≤ mget P i j) (i j : ℕ) : 0 ≤ mget (zeroRootSelf P roots) i j := by
  rw [mget_zeroRootSelf]
  split
  · rfl
  · exact h i j

theorem ltTwoNewHead_entry (probs1 : Mat) (length r k : ℕ) (hk : k < length) :
    ((List.range length).map (fun t => mget probs1 r t)).getD k 0 = mget probs1 r k := by
  rw [getD_map_lt _ _ (by simpa using hk) (0 : ℚ) 0, getD_range length k hk 0]

theorem ltTwoNewHead_lt (probs1 : Mat) (length r : ℕ) (h1 : 1 ≤ length) :
    ltTwoNewHead probs1 (List.range length) r < length := by
  unfold ltTwoNewHead
  have hne : (List.range length).map (fun t => mget probs1 r t) ≠ [] := by
    rw [ne_eq, List.map_eq_nil_iff, ← List.length_eq_zero]
    simp
    omega
  have := (argmax_spec _ hne).1
  simpa using this

theorem ltTwoNewHead_max (probs1 : Mat) (length r : ℕ) (h1 : 1 ≤ length) :
    ∀ t < length, mget probs1 r t
      ≤ mget probs1 r (ltTwoNewHead probs1 (List.range length) r) := by
  intro t ht
  have hne : (List.range length).map (fun t => mget probs1 r t) ≠ [] := by
    rw [ne_eq, List.map_eq_nil_iff, ← List.length_eq_zero]
    simp
    omega
  obtain ⟨hb, hmax, _⟩ := argmax_spec _ hne
  have hb2 : ltTwoNewHead probs1 (List.range length) r < length := by
    unfold ltTwoNewHead
    simpa using hb
  have := hmax t (by simpa using ht)
  rw [ltTwoNewHead_entry probs1 length r t ht] at this
  rw [show argmax ((List.range length).map (fun t => mget probs1 r t))
      = ltTwoNewHead probs1 (List.range length) r from rfl] at this
  rwa [ltTwoNewHead_entry probs1 length r _ hb2] at this

/-- If a root re-selects itself as its best alternative head after its
self-score has been zeroed, all its (nonnegative) alternatives are zero and
the argmax tie-break forces index 0, so that root must be token 0. -/
theorem ltTwoNewHead_self (P : Mat) (roots : List ℕ) (length r : ℕ)
    (h1 : 1 ≤ length) (hr : r ∈ roots) (hnn : ∀ i j, 0 ≤ mget P i j)
    (heq : ltTwoNewHead (zeroRootSelf P roots) (List.range length) r = r) :
    r = 0 := by
  by_contra hr0
  have hne : (List.range length).map (fun t => mget (zeroRootSelf P roots) r t) ≠ [] := by
    rw [ne_eq, List.map_eq_nil_iff, ← List.length_eq_zero]
    simp
    omega
  obtain ⟨hb, hmax, hfirst⟩ := argmax_spec _ hne
  have hbpos : 0 < argmax ((List.range length).map (fun t => mget (zeroRootSelf P roots) r t)) := by
    have : argmax ((List.range length).map (fun t => mget (zeroRootSelf P roots) r t)) = r := heq
    omega
  have hlt0 := hfirst 0 hbpos
  have hb2 : argmax ((List.range length).map (fun t => mget (zeroRootSelf P roots) r t)) < length := by
    simpa using hb
  rw [ltTwoNewHead_entry _ length r 0 (by omega)] at hlt0
  rw [ltTwoNewHead_entry _ length r _ hb2] at hlt0
  have hvz : mget (zeroRootSelf P roots) r
      (argmax ((List.range length).map (fun t => mget (zeroRootSelf P roots) r t))) = 0 := by
    have : argmax ((List.range length).map (fun t => mget (zeroRootSelf P roots) r t)) = r := heq
    rw [this, mget_zeroRootSelf, if_pos ⟨hr, rfl⟩]
  rw [hvz] at hlt0
  exact absurd hlt0 (not_lt.mpr (mget_zeroRootSelf_nonneg P roots hnn r 0))

theorem ltTwoRatioList_length (P : Mat) (roots tokens : List ℕ) :
    (ltTwoRatioList P roots tokens).length = roots.length := by
  simp [ltTwoRatioList]

theorem ltTwoRatioList_getD (P : Mat) (roots : List ℕ) (length k : ℕ)
    (hk : k < roots.length) :
    (ltTwoRatioList P roots (List.range length)).getD k 0
      = mget (zeroRootSelf P roots) (roots.getD k 0)
          (ltTwoNewHead (zeroRootSelf P roots) (List.range length) (roots.getD k 0))
        / mget P (roots.getD k 0) (roots.getD k 0) := by
  unfold ltTwoRatioList
  rw [getD_zipWith _ _ _ (by simp [List.length_zip]; omega) (by simpa using hk)
    (0 : ℚ) (0, 0) 0]
  rw [getD_zip _ _ hk (by simpa using hk) 0 0]
  rw [getD_map_lt _ _ hk 0 0]
  rw [getD_map_lt _ _ hk (0 : ℚ) 0]

theorem ltTwoRatioList_nonneg (P : Mat) (roots : List ℕ) (length : ℕ)
    (hnn : ∀ i j, 0 ≤ mget P i j) :
    ∀ k < roots.length, 0 ≤ (ltTwoRatioList P roots (List.range length)).getD k 0 := by
  intro k hk
  rw [ltTwoRatioList_getD P roots length k hk]
  exact div_nonneg (mget_zeroRootSelf_nonneg P roots hnn _ _) (hnn _ _)

/-- When no valid token is self-headed, `ensure_gt_one_root` leaves exactly
the selected token self-headed. -/
theorem gt_one_root_roots (preds : List ℕ) (P : Mat) (length : ℕ)
    (h1 : 1 ≤ length) (h2 : length ≤ preds.length)
    (h0 : rootsOf preds length = []) :
    rootsOf (ensure_gt_one_root preds P (List.range length)) length
      = [gtOneNewRoot preds P (List.range length)] := by
  have hb := gtOneNewRoot_lt preds P length h1
  have hnone : ∀ i < length, preds.getD i 0 ≠ i := by
    intro i hi hc
    have hmem : i ∈ rootsOf preds length := (mem_rootsOf preds length i).mpr ⟨hi, hc⟩
    rw [h0] at hmem
    exact absurd hmem (List.not_mem_nil i)
  unfold rootsOf
  apply filter_range_eq_singleton length _ _ hb
  intro i hi
  rw [beq_iff_eq]
  constructor
  · intro hp
    by_contra hir
    have hun : (ensure_gt_one_root preds P (List.range length)).getD i 0 = preds.getD i 0 := by
      show (preds.set _ _).getD i 0 = _
      exact getD_set_ne preds _ 0 (fun hc => hir hc.symm)
    rw [hun] at hp
    exact hnone i hi hp
  · intro hir
    rw [hir]
    show (preds.set (gtOneNewRoot preds P (List.range length))
      (gtOneNewRoot preds P (List.range length))).getD
        (gtOneNewRoot preds P (List.range length)) 0 = _
    exact getD_set_self preds _ _ 0 (lt_of_lt_of_le hb h2)

/-- With at least one self-headed valid token and nonnegative probabilities,
`ensure_lt_two_root` (called on the list of current roots, as `parse_argmax`
does) leaves exactly the ratio-argmin root self-headed. -/
theorem lt_two_root_roots (preds : List ℕ) (P : Mat) (length : ℕ)
    (h1 : 1 ≤ length) (h2 : length ≤ preds.length)
    (hnn : ∀ i j, 0 ≤ mget P i j)
    (hmul : 1 ≤ (rootsOf preds length).length) :
    rootsOf (ensure_lt_two_root preds P (rootsOf preds length) (List.range length)).1 length
      = [(rootsOf preds length).getD
          (argmin (ltTwoRatioList P (rootsOf preds length) (List.range length))) 0] := by
  set roots := rootsOf preds length with hroots
  set probs1 := zeroRootSelf P roots with hprobs1
  set nh := ltTwoNewHead probs1 (List.range length) with hnh
  set ratioL := ltTwoRatioList P roots (List.range length) with hratio
  set am := argmin ratioL with ham
  set newRoot := roots.getD am 0 with hnr
  have hrl : ratioL.length = roots.length := ltTwoRatioList_length P roots (List.range length)
  have hrne : ratioL ≠ [] := by
    rw [ne_eq, ← List.length_eq_zero, hrl]
    omega
  have hamlt : am < roots.length := by
    have := (argmin_spec ratioL hrne).1
    rw [hrl] at this
    exact this
  have hmem : newRoot ∈ roots := getD_mem_of_lt roots hamlt 0
  obtain ⟨hnrlt, hnrself⟩ := (mem_rootsOf preds length newRoot).mp (hroots ▸ hmem)
  have hzip : roots.zip (roots.map nh) = roots.map (fun r => (r, nh r)) := by
    have hz := List.zip_map' id nh roots
    simpa using hz
  have hfst : (roots.zip (roots.map nh)).map Prod.fst = roots :=
    List.map_fst_zip roots (roots.map nh) (by simp)
  have hndf : ((roots.zip (roots.map nh)).map Prod.fst).Nodup := by
    rw [hfst]
    exact rootsOf_nodup preds length
  have hres : (ensure_lt_two_root preds P roots (List.range length)).1
      = ((roots.zip (roots.map nh)).foldl (fun a p => a.set p.1 p.2) preds).set
          newRoot newRoot := rfl
  have hlen1 : ((roots.zip (roots.map nh)).foldl (fun a p => a.set p.1 p.2) preds).length
      = preds.length := length_foldl_set _ preds
  unfold rootsOf
  apply filter_range_eq_singleton length _ _ hnrlt
  intro i hi
  rw [beq_iff_eq, hres]
  constructor
  · intro hp
    by_contra hir
    rw [getD_set_ne _ _ 0 (fun hc => hir hc.symm)] at hp
    by_cases hin : i ∈ roots
    · rw [getD_foldl_set_of_mem (roots.zip (roots.map nh)) preds i (nh i) 0 hndf
        (by rw [hzip]; exact List.mem_map_of_mem (fun r => (r, nh r)) hin)
        (lt_of_lt_of_le hi h2)] at hp
      have hizero : i = 0 := ltTwoNewHead_self P roots length i h1 hin hnn hp
      subst hizero
      have hself0 : preds.getD 0 0 = 0 := ((mem_rootsOf preds length 0).mp hin).2
      obtain ⟨t, hrt⟩ := rootsOf_zero_head preds length (by omega) hself0
      have hr00 : roots.getD 0 0 = 0 := by
        rw [hroots, hrt]
        rfl
      have hnh0 : nh 0 = 0 := hp
      have hratio0 : ratioL.getD 0 0 = 0 := by
        rw [hratio, ltTwoRatioList_getD P roots length 0 (by omega)]
        rw [← hprobs1, ← hnh, hr00, hnh0]
        rw [hprobs1, mget_zeroRootSelf, if_pos ⟨hin, rfl⟩]
        rw [zero_div]
      have ham0 : am = 0 := by
        by_contra hamne
        have hpos : 0 < am := Nat.pos_of_ne_zero hamne
        have := (argmin_spec ratioL hrne).2.2 0 hpos
        rw [hratio0] at this
        have hge := ltTwoRatioList_nonneg P roots length hnn am hamlt
        rw [← hratio] at hge
        exact absurd this (not_lt.mpr hge)
      exact hir (by rw [hnr, ham0, hr00])
    · rw [getD_foldl_set_of_ne _ preds i 0
        (fun p hpz => fun hc => hin (hc ▸ (List.of_mem_zip hpz).1))] at hp
      apply hin
      rw [hroots]
      exact (mem_rootsOf preds length i).mpr ⟨hi, hp⟩
  · intro hir
    rw [hir]
    exact getD_set_self _ newRoot newRoot 0 (by rw [hlen1]; exact lt_of_lt_of_le hnrlt h2)

/-- C1 (amended): with `ensure_tree` enabled `parse_argmax` always returns a
value (its embedding is a total function — no step of the source path
raises), and after the root-count normalization step, before the MST rebuild,
the assignment has exactly one self-headed valid token.  (The MST rebuild does
not always preserve this; see the counterexample.) -/
theorem C1_normalized_single_root (P0 : Mat) (keep : List Bool)
    (hnn : ∀ i j, 0 ≤ mget P0 i j)
    (h1 : 1 ≤ countTrue keep) (h2 : countTrue keep ≤ P0.length) :
    (rootsOf (rootNormalize ((maskCols P0 keep).map argmax) (maskCols P0 keep)
      (countTrue keep)).1 (countTrue keep)).length = 1 := by
  have hnnP : ∀ i j, 0 ≤ mget (maskCols P0 keep) i j := mget_maskCols_nonneg P0 keep hnn
  have hlen : countTrue keep ≤ ((maskCols P0 keep).map argmax).length := by
    rw [List.length_map, length_maskCols]
    exact h2
  simp only [rootNormalize]
  by_cases hz : (rootsOf ((maskCols P0 keep).map argmax) (countTrue keep)).length < 1
  · rw [if_pos hz]
    have h0 : rootsOf ((maskCols P0 keep).map argmax) (countTrue keep) = [] :=
      List.length_eq_zero.mp (by omega)
    show (rootsOf (ensure_gt_one_root ((maskCols P0 keep).map argmax) (maskCols P0 keep)
      (List.range (countTrue keep))) (countTrue keep)).length = 1
    rw [gt_one_root_roots _ _ _ h1 hlen h0]
    rfl
  · rw [if_neg hz]
    by_cases hg : (rootsOf ((maskCols P0 keep).map argmax) (countTrue keep)).length > 1
    · rw [if_pos hg]
      rw [lt_two_root_roots _ _ _ h1 hlen hnnP (by omega)]
      rfl
    · rw [if_neg hg]
      show (rootsOf ((maskCols P0 keep).map argmax) (countTrue keep)).length = 1
      omega

/-- C1 witness: the normalization theorem at the counterexample matrix. -/
theorem C1_normalized_single_root_witness :
    (rootsOf (rootNormalize ((maskCols cexProbs [true, true, true]).map argmax)
      (maskCols cexProbs [true, true, true]) (countTrue [true, true, true])).1
      (countTrue [true, true, true])).length = 1 :=
  C1_normalized_single_root cexProbs [true, true, true]
    (fun i j => mget_nonneg_of_all cexProbs (by decide) i j) (by decide) (by decide)

/-- In the multi-root branch, every former root other than the kept one is
reassigned to its recomputed best alternative head. -/
theorem lt_two_preds_mem (preds : List ℕ) (P : Mat) (length r : ℕ)
    (h2 : length ≤ preds.length) (hr : r ∈ rootsOf preds length)
    (hner : r ≠ (rootsOf preds length).getD
      (argmin (ltTwoRatioList P (rootsOf preds length) (List.range length))) 0) :
    (ensure_lt_two_root preds P (rootsOf preds length) (List.range length)).1.getD r 0
      = ltTwoNewHead (zeroRootSelf P (rootsOf preds length)) (List.range length) r := by
  set roots := rootsOf preds length with hroots
  set nh := ltTwoNewHead (zeroRootSelf P roots) (List.range length) with hnh
  have hzip : roots.zip (roots.map nh) = roots.map (fun r => (r, nh r)) := by
    have hz := List.zip_map' id nh roots
    simpa using hz
  have hndf : ((roots.zip (roots.map nh)).map Prod.fst).Nodup := by
    rw [List.map_fst_zip roots (roots.map nh) (by simp)]
    exact rootsOf_nodup preds length
  have hres : (ensure_lt_two_root preds P roots (List.range length)).1
      = ((roots.zip (roots.map nh)).foldl (fun a p => a.set p.1 p.2) preds).set
          (roots.getD (argmin (ltTwoRatioList P roots (List.range length))) 0)
          (roots.getD (argmin (ltTwoRatioList P roots (List.range length))) 0) := rfl
  rw [hres]
  rw [getD_set_ne _ _ 0 (fun hc => hner hc.symm)]
  have hrlen : r < preds.length :=
    lt_of_lt_of_le ((mem_rootsOf preds length r).mp (hroots ▸ hr)).1 h2
  exact getD_foldl_set_of_mem (roots.zip (roots.map nh)) preds r (nh r) 0 hndf
    (by rw [hzip]; exact List.mem_map_of_mem (fun x => (x, nh x)) hr) hrlen

/-- C2 (confirmed): the Root Count Normalizer.  Zero-root case: the token
maximizing `scores[i,i]/scores[i,assignment[i]]` becomes its own head and the
result has exactly one root.  Multi-root case: the ratio-argmin root (best
recomputed alternative-head probability over former self-probability) is kept
as sole root, every other former root is reassigned to its recomputed best
alternative head (best among valid tokens after its self-score was zeroed),
and the result has exactly one root. -/
theorem C2_root_normalizer (preds : List ℕ) (P : Mat) (length : ℕ)
    (h1 : 1 ≤ length) (h2 : length ≤ preds.length)
    (hnn : ∀ i j, 0 ≤ mget P i j) :
    (rootsOf preds length = [] →
      ensure_gt_one_root preds P (List.range length)
          = preds.set (gtOneNewRoot preds P (List.range length))
              (gtOneNewRoot preds P (List.range length)) ∧
        gtOneNewRoot preds P (List.range length) < length ∧
        (∀ i < length, mget P i i / mget P i (preds.getD i 0)
          ≤ mget P (gtOneNewRoot preds P (List.range length))
                (gtOneNewRoot preds P (List.range length))
              / mget P (gtOneNewRoot preds P (List.range length))
                  (preds.getD (gtOneNewRoot preds P (List.range length)) 0)) ∧
        (rootsOf (ensure_gt_one_root preds P (List.range length)) length).length = 1) ∧
    (1 < (rootsOf preds length).length →
      (∀ k < (rootsOf preds length).length,
        (ltTwoRatioList P (rootsOf preds length) (List.range length)).getD
            (argmin (ltTwoRatioList P (rootsOf preds length) (List.range length))) 0
          ≤ (ltTwoRatioList P (rootsOf preds length) (List.range length)).getD k 0) ∧
      (ensure_lt_two_root preds P (rootsOf preds length) (List.range length)).1.getD
          ((rootsOf preds length).getD
            (argmin (ltTwoRatioList P (rootsOf preds length) (List.range length))) 0) 0
        = (rootsOf preds length).getD
            (argmin (ltTwoRatioList P (rootsOf preds length) (List.range length))) 0 ∧
      (∀ r ∈ rootsOf preds length,
        r ≠ (rootsOf preds length).getD
            (argmin (ltTwoRatioList P (rootsOf preds length) (List.range length))) 0 →
        (ensure_lt_two_root preds P (rootsOf preds length) (List.range length)).1.getD r 0
            = ltTwoNewHead (zeroRootSelf P (rootsOf preds length)) (List.range length) r ∧
          ∀ t < length, mget (zeroRootSelf P (rootsOf preds length)) r t
            ≤ mget (zeroRootSelf P (rootsOf preds length)) r
                (ltTwoNewHead (zeroRootSelf P (rootsOf preds length)) (List.range length) r)) ∧
      (rootsOf (ensure_lt_two_root preds P (rootsOf preds length)
        (List.range length)).1 length).length = 1) := by
  constructor
  · intro h0
    exact ⟨rfl, gtOneNewRoot_lt preds P length h1, gtOneNewRoot_max preds P length h1,
      by rw [gt_one_root_roots preds P length h1 h2 h0]; rfl⟩
  · intro hmul
    have hone : 1 ≤ (rootsOf preds length).length := by omega
    have hsingle := lt_two_root_roots preds P length h1 h2 hnn hone
    have hrl : (ltTwoRatioList P (rootsOf preds length) (List.range length)).length
        = (rootsOf preds length).length :=
      ltTwoRatioList_length P (rootsOf preds length) (List.range length)
    have hrne : ltTwoRatioList P (rootsOf preds length) (List.range length) ≠ [] := by
      rw [ne_eq, ← List.length_eq_zero, hrl]
      omega
    refine ⟨?_, ?_, ?_, ?_⟩
    · intro k hk
      exact (argmin_spec _ hrne).2.1 k (by rwa [hrl])
    · have hmem : (rootsOf preds length).getD
          (argmin (ltTwoRatioList P (rootsOf preds length) (List.range length))) 0
            ∈ rootsOf (ensure_lt_two_root preds P (rootsOf preds length)
              (List.range length)).1 length := by
        rw [hsingle]
        exact List.mem_singleton_self _
      exact ((mem_rootsOf _ length _).mp hmem).2
    · intro r hr hner
      exact ⟨lt_two_preds_mem preds P length r h2 hr hner,
        ltTwoNewHead_max (zeroRootSelf P (rootsOf preds length)) length r h1⟩
    · rw [hsingle]
      rfl

/-- C2 witness: the zero-root branch at a concrete two-token input. -/
theorem C2_root_normalizer_witness :
    (rootsOf (ensure_gt_one_root [1, 0] [[(1 : ℚ), 2], [3, 4]] (List.range 2)) 2).length = 1 :=
  (((C2_root_normalizer [1, 0] [[(1 : ℚ), 2], [3, 4]] 2 (by decide) (by decide)
    (fun i j => mget_nonneg_of_all _ (by decide) i j)).1) (by decide)).2.2.2

theorem argmax_map_range_lt (f : ℕ → ℚ) (length : ℕ) (h1 : 1 ≤ length) :
    argmax ((List.range length).map f) < length := by
  have hne : (List.range length).map f ≠ [] := by
    rw [ne_eq, List.map_eq_nil_iff, ← List.length_eq_zero]
    simp
    omega
  have := (argmax_spec _ hne).1
  simpa using this

theorem argmax_map_range_max (f : ℕ → ℚ) (length : ℕ) (h1 : 1 ≤ length) :
    ∀ t < length, f t ≤ f (argmax ((List.range length).map f)) := by
  intro t ht
  have hne : (List.range length).map f ≠ [] := by
    rw [ne_eq, List.map_eq_nil_iff, ← List.length_eq_zero]
    simp
    omega
  obtain ⟨hb, hmax, _⟩ := argmax_spec _ hne
  have hb2 : argmax ((List.range length).map f) < length := by simpa using hb
  have hentry : ∀ k, k < length → ((List.range length).map f).getD k 0 = f k := by
    intro k hk
    rw [getD_map_lt _ _ (by simpa using hk) 0 0, getD_range length k hk 0]
  have := hmax t (by simpa using ht)
  rw [hentry t ht, hentry _ hb2] at this
  exact this

theorem mem_relRootsOf (preds : List ℕ) (root length i : ℕ) :
    i ∈ relRootsOf preds root length ↔ i < length ∧ preds.getD i 0 = root := by
  simp [relRootsOf, List.mem_filter, List.mem_range]

theorem relRootsOf_nodup (preds : List ℕ) (root length : ℕ) :
    (relRootsOf preds root length).Nodup :=
  List.Nodup.filter _ (List.nodup_range length)

/-- The PAD column is zero after the in-place `rel_probs[:, PAD] = 0`. -/
theorem mget_zeropad_pad (probs : Mat) (pad i : ℕ) :
    mget (probs.map (fun row => row.set pad 0)) i pad = 0 := by
  by_cases hi : i < probs.length
  · by_cases hp : pad < (probs.getD i []).length
    · exact mget_zeropad_self probs pad i hi hp
    · push_neg at hp
      unfold mget
      rw [getD_map_lt _ _ hi [] []]
      rw [List.set_eq_of_length_le hp]
      rw [List.getD_eq_getElem?_getD, List.getElem?_eq_none hp]
      rfl
  · push_neg at hi
    have h1 : (probs.map (fun row => row.set pad 0)).getD i [] = [] := by
      rw [List.getD_eq_getElem?_getD, List.getElem?_eq_none (by simpa using hi)]
      rfl
    unfold mget
    rw [h1]
    rfl

theorem mget_zeropad_nonneg (probs : Mat) (pad : ℕ) (hnn : ∀ i j, 0 ≤ mget probs i j)
    (i j : ℕ) : 0 ≤ mget (probs.map (fun row => row.set pad 0)) i j := by
  by_cases hj : j = pad
  · subst hj
    rw [mget_zeropad_pad]
  · rw [mget_zeropad_ne probs pad i j hj]
    exact hnn i j

theorem mget_relZeroRoot (probs0 : Mat) (roots : List ℕ) (root i j : ℕ) :
    mget (relZeroRoot probs0 roots root) i j
      = if i ∈ roots ∧ j = root then 0 else mget probs0 i j :=
  mget_foldl_msetzero roots (fun _ => root) probs0 i j

theorem mget_relZeroRoot_nonneg (probs0 : Mat) (roots : List ℕ) (root : ℕ)
    (hnn : ∀ i j, 0 ≤ mget probs0 i j) (i j : ℕ) :
    0 ≤ mget (relZeroRoot probs0 roots root) i j := by
  rw [mget_relZeroRoot]
  split
  · rfl
  · exact hnn i j

/-- The recomputed best label of a predicted-ROOT token is never ROOT again:
its ROOT probability was zeroed, and on an all-zero (nonnegative) row the
argmax tie-break yields label 0, which is not ROOT. -/
theorem relNewPred_ne_root (probs0 : Mat) (roots : List ℕ) (root r : ℕ)
    (hroot : root ≠ 0) (hr : r ∈ roots) (hnn : ∀ i j, 0 ≤ mget probs0 i j) :
    relNewPred (relZeroRoot probs0 roots root) r ≠ root := by
  intro heq
  by_cases hrow : (relZeroRoot probs0 roots root).getD r [] = []
  · unfold relNewPred at heq
    rw [hrow] at heq
    exact hroot (by simpa [argmax] using heq.symm)
  · obtain ⟨hb, hmax, hfirst⟩ := argmax_spec _ hrow
    have hrpos : 0 < argmax ((relZeroRoot probs0 roots root).getD r []) := by
      have heq2 : argmax ((relZeroRoot probs0 roots root).getD r []) = root := heq
      omega
    have h0 := hfirst 0 hrpos
    have hval : ((relZeroRoot probs0 roots root).getD r []).getD
        (argmax ((relZeroRoot probs0 roots root).getD r [])) 0 = 0 := by
      have heq2 : argmax ((relZeroRoot probs0 roots root).getD r []) = root := heq
      rw [heq2]
      show mget (relZeroRoot probs0 roots root) r root = 0
      rw [mget_relZeroRoot, if_pos ⟨hr, rfl⟩]
    rw [hval] at h0
    have hge : 0 ≤ ((relZeroRoot probs0 roots root).getD r []).getD 0 0 :=
      mget_relZeroRoot_nonneg probs0 roots root hnn r 0
    exact absurd h0 (not_lt.mpr hge)

theorem relRatioList_length (probs0 : Mat) (roots : List ℕ) (root : ℕ) :
    (relRatioList probs0 roots root).length = roots.length := by
  simp [relRatioList]

/-- `rel_argmax` in ensure-tree mode, with the branch structure exposed. -/
theorem rel_argmax_true_def (pad root : ℕ) (probs : Mat) (keep : List Bool) :
    rel_argmax true pad root probs keep
      = (let probs0 := probs.map (fun row => row.set pad 0)
         let length := countTrue keep
         let rel_preds := probs0.map argmax
         let roots := relRootsOf rel_preds root length
         if roots.length < 1 then
           (rel_preds.set (argmax ((List.range length).map
             (fun t => mget probs0 t root))) root, probs0)
         else if roots.length > 1 then
           (((roots.zip (roots.map (relNewPred (relZeroRoot probs0 roots root)))).foldl
               (fun a p => a.set p.1 p.2) rel_preds).set
             (roots.getD (argmin (relRatioList probs0 roots root)) 0) root,
            relZeroRoot probs0 roots root)
         else (rel_preds, probs0)) := rfl

theorem rel_argmax_zero_branch (pad root : ℕ) (probs : Mat) (keep : List Bool)
    (h0 : (relRootsOf ((probs.map (fun row => row.set pad 0)).map argmax) root
      (countTrue keep)).length < 1) :
    rel_argmax true pad root probs keep
      = (((probs.map (fun row => row.set pad 0)).map argmax).set
          (argmax ((List.range (countTrue keep)).map
            (fun t => mget (probs.map (fun row => row.set pad 0)) t root))) root,
         probs.map (fun row => row.set pad 0)) := by
  rw [rel_argmax_true_def]
  exact if_pos h0

theorem rel_argmax_multi_branch (pad root : ℕ) (probs : Mat) (keep : List Bool)
    (hm : 1 < (relRootsOf ((probs.map (fun row => row.set pad 0)).map argmax) root
      (countTrue keep)).length) :
    rel_argmax true pad root probs keep
      = (let probs0 := probs.map (fun row => row.set pad 0)
         let roots := relRootsOf (probs0.map argmax) root (countTrue keep)
         (((roots.zip (roots.map (relNewPred (relZeroRoot probs0 roots root)))).foldl
             (fun a p => a.set p.1 p.2) (probs0.map argmax)).set
           (roots.getD (argmin (relRatioList probs0 roots root)) 0) root,
          relZeroRoot probs0 roots root)) := by
  rw [rel_argmax_true_def]
  show (if _ < 1 then _ else if _ > 1 then _ else _) = _
  rw [if_neg (by omega), if_pos hm]

theorem rel_argmax_single_branch (pad root : ℕ) (probs : Mat) (keep : List Bool)
    (hs : (relRootsOf ((probs.map (fun row => row.set pad 0)).map argmax) root
      (countTrue keep)).length = 1) :
    rel_argmax true pad root probs keep
      = ((probs.map (fun row => row.set pad 0)).map argmax,
         probs.map (fun row => row.set pad 0)) := by
  rw [rel_argmax_true_def]
  show (if _ < 1 then _ else if _ > 1 then _ else _) = _
  rw [if_neg (by omega), if_neg (by omega)]

/-- C6 (confirmed): with `ensure_tree` enabled, `rel_argmax` zeroes the PAD
probability column before any argmax; if no valid token receives ROOT under
the row-wise argmax it assigns ROOT to the valid token with the highest ROOT
probability; if several valid tokens receive ROOT it keeps as ROOT only the
one minimizing the ratio of best-non-ROOT probability to ROOT probability and
reassigns each other such token to its best non-ROOT label; the returned
labeling has exactly one valid token labeled ROOT.  `Vocab.PAD` and
`Vocab.ROOT` are modelled from the spec as parameters; `root ≠ 0` records
that ROOT is not the first label (in the vocabulary, PAD is label 0). -/
theorem C6_rel_argmax_root (pad root : ℕ) (probs : Mat) (keep : List Bool)
    (hnn : ∀ i j, 0 ≤ mget probs i j) (hroot : root ≠ 0)
    (h1 : 1 ≤ countTrue keep) (h2 : countTrue keep ≤ probs.length) :
    (∀ i, mget (probs.map (fun row => row.set pad 0)) i pad = 0) ∧
      ((relRootsOf ((probs.map (fun row => row.set pad 0)).map argmax) root
          (countTrue keep)).length < 1 →
        (rel_argmax true pad root probs keep).1
            = ((probs.map (fun row => row.set pad 0)).map argmax).set
                (argmax ((List.range (countTrue keep)).map
                  (fun t => mget (probs.map (fun row => row.set pad 0)) t root))) root ∧
          ∀ t < countTrue keep, mget (probs.map (fun row => row.set pad 0)) t root
            ≤ mget (probs.map (fun row => row.set pad 0))
                (argmax ((List.range (countTrue keep)).map
                  (fun t => mget (probs.map (fun row => row.set pad 0)) t root))) root) ∧
      (1 < (relRootsOf ((probs.map (fun row => row.set pad 0)).map argmax) root
          (countTrue keep)).length →
        (rel_argmax true pad root probs keep).1.getD
            ((relRootsOf ((probs.map (fun row => row.set pad 0)).map argmax) root
              (countTrue keep)).getD
              (argmin (relRatioList (probs.map (fun row => row.set pad 0))
                (relRootsOf ((probs.map (fun row => row.set pad 0)).map argmax) root
                  (countTrue keep)) root)) 0) 0 = root ∧
          (∀ k < (relRootsOf ((probs.map (fun row => row.set pad 0)).map argmax) root
              (countTrue keep)).length,
            (relRatioList (probs.map (fun row => row.set pad 0))
                (relRootsOf ((probs.map (fun row => row.set pad 0)).map argmax) root
                  (countTrue keep)) root).getD
                (argmin (relRatioList (probs.map (fun row => row.set pad 0))
                  (relRootsOf ((probs.map (fun row => row.set pad 0)).map argmax) root
                    (countTrue keep)) root)) 0
              ≤ (relRatioList (probs.map (fun row => row.set pad 0))
                  (relRootsOf ((probs.map (fun row => row.set pad 0)).map argmax) root
                    (countTrue keep)) root).getD k 0) ∧
          (∀ r ∈ relRootsOf ((probs.map (fun row => row.set pad 0)).map argmax) root
              (countTrue keep),
            r ≠ (relRootsOf ((probs.map (fun row => row.set pad 0)).map argmax) root
                (countTrue keep)).getD
                (argmin (relRatioList (probs.map (fun row => row.set pad 0))
                  (relRootsOf ((probs.map (fun row => row.set pad 0)).map argmax) root
                    (countTrue keep)) root)) 0 →
            (rel_argmax true pad root probs keep).1.getD r 0
              = relNewPred (relZeroRoot (probs.map (fun row => row.set pad 0))
                  (relRootsOf ((probs.map (fun row => row.set pad 0)).map argmax) root
                    (countTrue keep)) root) r)) ∧
      (relRootsOf (rel_argmax true pad root probs keep).1 root (countTrue keep)).length = 1 := by
  set length := countTrue keep with hlen
  set probs0 := probs.map (fun row => row.set pad 0) with hprobs0
  set preds0 := probs0.map argmax with hpreds0
  set roots0 := relRootsOf preds0 root length with hroots0
  have hnn0 : ∀ i j, 0 ≤ mget probs0 i j := mget_zeropad_nonneg probs pad hnn
  have hp0len : preds0.length = probs.length := by
    rw [hpreds0, List.length_map, hprobs0, List.length_map]
  have hcol : argmax ((List.range length).map (fun t => mget probs0 t root)) < length :=
    argmax_map_range_lt _ length h1
  refine ⟨fun i => mget_zeropad_pad probs pad i, ?_, ?_, ?_⟩
  · intro h0
    constructor
    · rw [rel_argmax_zero_branch pad root probs keep h0]
    · exact argmax_map_range_max (fun t => mget probs0 t root) length h1
  · intro hm
    have hrll : (relRatioList probs0 roots0 root).length = roots0.length :=
      relRatioList_length probs0 roots0 root
    have hrlne : relRatioList probs0 roots0 root ≠ [] := by
      rw [ne_eq, ← List.length_eq_zero, hrll]
      omega
    have hamlt : argmin (relRatioList probs0 roots0 root) < roots0.length := by
      have := (argmin_spec _ hrlne).1
      rwa [hrll] at this
    have hmemNR : roots0.getD (argmin (relRatioList probs0 roots0 root)) 0 ∈ roots0 :=
      getD_mem_of_lt roots0 hamlt 0
    have hNRlt : roots0.getD (argmin (relRatioList probs0 roots0 root)) 0 < length :=
      ((mem_relRootsOf preds0 root length _).mp hmemNR).1
    have hres : (rel_argmax true pad root probs keep).1
        = ((roots0.zip (roots0.map (relNewPred (relZeroRoot probs0 roots0 root)))).foldl
            (fun a p => a.set p.1 p.2) preds0).set
          (roots0.getD (argmin (relRatioList probs0 roots0 root)) 0) root := by
      rw [rel_argmax_multi_branch pad root probs keep hm]
    have hfoldlen : ((roots0.zip (roots0.map (relNewPred (relZeroRoot probs0 roots0 root)))).foldl
        (fun a p => a.set p.1 p.2) preds0).length = preds0.length := length_foldl_set _ _
    refine ⟨?_, ?_, ?_⟩
    · rw [hres]
      exact getD_set_self _ _ _ 0 (by rw [hfoldlen, hp0len]; exact lt_of_lt_of_le hNRlt h2)
    · intro k hk
      exact (argmin_spec _ hrlne).2.1 k (by rwa [hrll])
    · intro r hr hner
      have hzip : roots0.zip (roots0.map (relNewPred (relZeroRoot probs0 roots0 root)))
          = roots0.map (fun x => (x, relNewPred (relZeroRoot probs0 roots0 root) x)) := by
        have hz := List.zip_map' id (relNewPred (relZeroRoot probs0 roots0 root)) roots0
        simpa using hz
      have hndf : ((roots0.zip (roots0.map (relNewPred
          (relZeroRoot probs0 roots0 root)))).map Prod.fst).Nodup := by
        rw [List.map_fst_zip roots0 _ (by simp)]
        exact relRootsOf_nodup preds0 root length
      rw [hres, getD_set_ne _ _ 0 (fun hc => hner hc.symm)]
      have hrlt : r < preds0.length := by
        rw [hp0len]
        exact lt_of_lt_of_le ((mem_relRootsOf preds0 root length r).mp hr).1 h2
      exact getD_foldl_set_of_mem _ preds0 r _ 0 hndf
        (by rw [hzip]
            exact List.mem_map_of_mem (fun x => (x, relNewPred
              (relZeroRoot probs0 roots0 root) x)) hr) hrlt
  · have hnoroot : roots0.length < 1 → ∀ i < length, preds0.getD i 0 ≠ root := by
      intro h0 i hi hc
      have : i ∈ roots0 := (mem_relRootsOf preds0 root length i).mpr ⟨hi, hc⟩
      rw [List.length_eq_zero.mp (by omega : roots0.length = 0)] at this
      exact absurd this (List.not_mem_nil i)
    by_cases h0 : roots0.length < 1
    · have hset : (rel_argmax true pad root probs keep).1
          = preds0.set (argmax ((List.range length).map (fun t => mget probs0 t root))) root := by
        rw [rel_argmax_zero_branch pad root probs keep h0]
      unfold relRootsOf
      rw [hset]
      rw [filter_range_eq_singleton length
        (argmax ((List.range length).map (fun t => mget probs0 t root))) _ hcol ?_]
      · rfl
      · intro i hi
        rw [beq_iff_eq]
        constructor
        · intro hp
          by_contra hir
          rw [getD_set_ne preds0 root 0 (fun hc => hir hc.symm)] at hp
          exact hnoroot h0 i hi hp
        · intro hir
          rw [hir]
          exact getD_set_self preds0 _ root 0 (by rw [hp0len]; exact lt_of_lt_of_le hcol h2)
    · by_cases hm : 1 < roots0.length
      · have hrll : (relRatioList probs0 roots0 root).length = roots0.length :=
          relRatioList_length probs0 roots0 root
        have hrlne : relRatioList probs0 roots0 root ≠ [] := by
          rw [ne_eq, ← List.length_eq_zero, hrll]
          omega
        have hamlt : argmin (relRatioList probs0 roots0 root) < roots0.length := by
          have := (argmin_spec _ hrlne).1
          rwa [hrll] at this
        have hmemNR : roots0.getD (argmin (relRatioList probs0 roots0 root)) 0 ∈ roots0 :=
          getD_mem_of_lt roots0 hamlt 0
        have hNRlt : roots0.getD (argmin (relRatioList probs0 roots0 root)) 0 < length :=
          ((mem_relRootsOf preds0 root length _).mp hmemNR).1
        have hres : (rel_argmax true pad root probs keep).1
            = ((roots0.zip (roots0.map (relNewPred (relZeroRoot probs0 roots0 root)))).foldl
                (fun a p => a.set p.1 p.2) preds0).set
              (roots0.getD (argmin (relRatioList probs0 roots0 root)) 0) root := by
          rw [rel_argmax_multi_branch pad root probs keep hm]
        have hfoldlen : ((roots0.zip (roots0.map (relNewPred
            (relZeroRoot probs0 roots0 root)))).foldl
            (fun a p => a.set p.1 p.2) preds0).length = preds0.length := length_foldl_set _ _
        have hzip : roots0.zip (roots0.map (relNewPred (relZeroRoot probs0 roots0 root)))
            = roots0.map (fun x => (x, relNewPred (relZeroRoot probs0 roots0 root) x)) := by
          have hz := List.zip_map' id (relNewPred (relZeroRoot probs0 roots0 root)) roots0
          simpa using hz
        have hndf : ((roots0.zip (roots0.map (relNewPred
            (relZeroRoot probs0 roots0 root)))).map Prod.fst).Nodup := by
          rw [List.map_fst_zip roots0 _ (by simp)]
          exact relRootsOf_nodup preds0 root length
        unfold relRootsOf
        rw [hres]
        rw [filter_range_eq_singleton length
          (roots0.getD (argmin (relRatioList probs0 roots0 root)) 0) _ hNRlt ?_]
        · rfl
        · intro i hi
          rw [beq_iff_eq]
          constructor
          · intro hp
            by_contra hir
            rw [getD_set_ne _ root 0 (fun hc => hir hc.symm)] at hp
            by_cases hin : i ∈ roots0
            · rw [getD_foldl_set_of_mem _ preds0 i _ 0 hndf
                (by rw [hzip]
                    exact List.mem_map_of_mem (fun x => (x, relNewPred
                      (relZeroRoot probs0 roots0 root) x)) hin)
                (by rw [hp0len]
                    exact lt_of_lt_of_le ((mem_relRootsOf preds0 root length i).mp hin).1 h2)]
                at hp
              exact relNewPred_ne_root probs0 roots0 root i hroot hin hnn0 hp
            · rw [getD_foldl_set_of_ne _ preds0 i 0
                (fun p hpz => fun hc => hin (hc ▸ (List.of_mem_zip hpz).1))] at hp
              exact hin ((mem_relRootsOf preds0 root length i).mpr ⟨hi, hp⟩)
          · intro hir
            rw [hir]
            exact getD_set_self _ _ root 0
              (by rw [hfoldlen, hp0len]; exact lt_of_lt_of_le hNRlt h2)
      · have hs : roots0.length = 1 := by omega
        have hset : (rel_argmax true pad root probs keep).1 = preds0 := by
          rw [rel_argmax_single_branch pad root probs keep hs]
        rw [hset]
        exact hs

/-- C6 witness: a concrete call with two valid tokens both preferring ROOT
(label 1); the result keeps exactly one ROOT label. -/
theorem C6_rel_argmax_root_witness :
    (relRootsOf (rel_argmax true 0 1 [[(1 : ℚ), 5, 2], [1, 7, 3]] [true, true]).1 1
      (countTrue [true, true])).length = 1 :=
  (C6_rel_argmax_root 0 1 [[(1 : ℚ), 5, 2], [1, 7, 3]] [true, true]
    (fun i j => mget_nonneg_of_all _ (by decide) i j) (by decide)
    (by decide) (by decide)).2.2.2

theorem adjacentB_symm (preds : List ℕ) (i j : ℕ) :
    adjacentB preds i j = adjacentB preds j i := by
  have hb : (i != j) = (j != i) := by
    rw [Bool.eq_iff_iff, bne_iff_ne, bne_iff_ne]
    exact ne_comm
  unfold adjacentB
  rw [Bool.or_comm, hb]

theorem dimsOK_zeros (n : ℕ) : dimsOK (zeros n n) n := by
  constructor
  · simp [zeros]
  · intro row hrow
    rw [List.eq_of_mem_replicate hrow]
    simp

theorem dimsOK_mset (M : Mat) (n a b : ℕ) (v : ℚ) (h : dimsOK M n) :
    dimsOK (mset M a b v) n := by
  refine ⟨by rw [length_mset, h.1], ?_⟩
  intro row hrow
  by_cases ha : a < M.length
  · rcases List.mem_or_eq_of_mem_set hrow with hmem | heq
    · exact h.2 row hmem
    · rw [heq, List.length_set]
      exact h.2 _ (getD_mem_of_lt M ha [])
  · push_neg at ha
    unfold mset at hrow
    rw [List.set_eq_of_length_le ha] at hrow
    exact h.2 row hrow

theorem getElem_eq_mget (A : Mat) (i j : ℕ) (h1 : i < A.length) (h2 : j < A[i].length) :
    A[i][j] = mget A i j := by
  unfold mget
  rw [List.getD_eq_getElem?_getD A i [], List.getElem?_eq_getElem h1]
  simp only [Option.getD_some]
  rw [List.getD_eq_getElem?_getD, List.getElem?_eq_getElem h2]
  rfl

theorem mat_ext (A B : Mat) (n : ℕ) (hA : dimsOK A n) (hB : dimsOK B n)
    (h : ∀ i < n, ∀ j < n, mget A i j = mget B i j) : A = B := by
  apply List.ext_getElem (by rw [hA.1, hB.1])
  intro i h1 h2
  apply List.ext_getElem
  · rw [hA.2 _ (List.getElem_mem h1), hB.2 _ (List.getElem_mem h2)]
  · intro j hj1 hj2
    have hi : i < n := by rwa [hA.1] at h1
    have hjn : j < n := by
      rw [hA.2 _ (List.getElem_mem h1)] at hj1
      exact hj1
    rw [getElem_eq_mget A i j h1 hj1, getElem_eq_mget B i j h2 hj2]
    exact h i hi j hjn

theorem sum_map_ite_neg_one (l : List ℕ) (p : ℕ → Bool) :
    (l.map (fun i => if p i then (-1 : ℚ) else 0)).sum = -((l.filter p).length : ℚ) := by
  induction l with
  | nil => simp
  | cons x xs ih =>
    by_cases hx : p x
    · simp only [List.map_cons, List.sum_cons, ih, List.filter_cons, hx, if_true]
      rw [List.length_cons]
      push_cast
      ring
    · simp [hx, ih, List.filter_cons]

theorem sum_pos_iff_exists (l : List ℚ) (h : ∀ x ∈ l, 0 ≤ x) :
    0 < l.sum ↔ ∃ x ∈ l, 0 < x := by
  induction l with
  | nil => simp
  | cons x xs ih =>
    have hx := h x (List.mem_cons_self x xs)
    have hxs : ∀ y ∈ xs, 0 ≤ y := fun y hy => h y (List.mem_cons.mpr (Or.inr hy))
    have hsum : 0 ≤ xs.sum := List.sum_nonneg hxs
    simp only [List.sum_cons, List.mem_cons]
    constructor
    · intro hpos
      by_cases hxp : 0 < x
      · exact ⟨x, Or.inl rfl, hxp⟩
      · push_neg at hxp
        have hs2 : 0 < xs.sum := by linarith
        obtain ⟨y, hy, hyp⟩ := (ih hxs).mp hs2
        exact ⟨y, Or.inr hy, hyp⟩
    · rintro ⟨y, hy | hy, hyp⟩
      · subst hy
        linarith
      · have hs2 : 0 < xs.sum := (ih hxs).mpr ⟨y, hy, hyp⟩
        linarith

/-- Positivity of the `sum(adj * adj^T)` test, for 0/1 matrices. -/
theorem pairs_sum_pos_iff (A : Mat) (n : ℕ) (B : ℕ → ℕ → Bool)
    (hA : ∀ i < n, ∀ j < n, mget A i j = if B i j then 1 else 0) :
    (0 < ((List.range n).map (fun i =>
        ((List.range n).map (fun j => mget A i j * mget A j i)).sum)).sum)
      ↔ ∃ i < n, ∃ j < n, B i j ∧ B j i := by
  have hterm : ∀ i < n, ∀ j < n,
      mget A i j * mget A j i = if (B i j && B j i) = true then (1 : ℚ) else 0 := by
    intro i hi j hj
    rw [hA i hi j hj, hA j hj i hi]
    by_cases h1 : B i j
    · by_cases h2 : B j i
      · simp [h1, h2]
      · simp [h1, h2]
    · simp [h1]
  have hinner : ∀ i, i < n → ((List.range n).map (fun j => mget A i j * mget A j i)).sum
      = (((List.range n).filter (fun j => B i j && B j i)).length : ℚ) := by
    intro i hi
    rw [List.map_congr_left (fun j hj => hterm i hi j (List.mem_range.mp hj))]
    exact sum_map_ite_one _ _
  rw [List.map_congr_left (fun i hi => hinner i (List.mem_range.mp hi))]
  rw [sum_pos_iff_exists _ (by
    intro x hx
    obtain ⟨i, _, hxi⟩ := List.mem_map.mp hx
    rw [← hxi]
    positivity)]
  constructor
  · rintro ⟨x, hx, hxp⟩
    obtain ⟨i, hi, hxi⟩ := List.mem_map.mp hx
    rw [← hxi] at hxp
    have hlp : 0 < ((List.range n).filter (fun j => B i j && B j i)).length := by
      rcases Nat.eq_zero_or_pos ((List.range n).filter (fun j => B i j && B j i)).length with
        hz | hp
      · rw [hz] at hxp
        norm_num at hxp
      · exact hp
    obtain ⟨j, hj⟩ := List.exists_mem_of_length_pos hlp
    have hj2 := List.mem_filter.mp hj
    refine ⟨i, List.mem_range.mp hi, j, List.mem_range.mp hj2.1, ?_⟩
    simpa using hj2.2
  · rintro ⟨i, hi, j, hj, hbb⟩
    refine ⟨(((List.range n).filter (fun j => B i j && B j i)).length : ℚ),
      List.mem_map.mpr ⟨i, List.mem_range.mpr hi, rfl⟩, ?_⟩
    have hjmem : j ∈ (List.range n).filter (fun j => B i j && B j i) :=
      List.mem_filter.mpr ⟨List.mem_range.mpr hj, by simpa using hbb⟩
    have hlenpos : 0 < ((List.range n).filter (fun j => B i j && B j i)).length :=
      List.length_pos.mpr (List.ne_nil_of_mem hjmem)
    exact_mod_cast hlenpos

theorem getD_replicate_zero (m b : ℕ) : (List.replicate m (0 : ℚ)).getD b 0 = 0 := by
  by_cases hb : b < m
  · rw [List.getD_eq_getElem?_getD, List.getElem?_eq_getElem (by simpa using hb)]
    simp [List.getElem_replicate]
  · push_neg at hb
    rw [List.getD_eq_getElem?_getD, List.getElem?_eq_none (by simpa using hb)]
    rfl

theorem mget_zeros (n m a b : ℕ) : mget (zeros n m) a b = 0 := by
  unfold zeros mget
  have h1 : (List.replicate n (List.replicate m (0 : ℚ))).getD a [] = List.replicate m 0 ∨
      (List.replicate n (List.replicate m (0 : ℚ))).getD a [] = [] := by
    by_cases ha : a < n
    · left
      rw [List.getD_eq_getElem?_getD, List.getElem?_eq_getElem (by simpa using ha)]
      simp [List.getElem_replicate]
    · right
      push_neg at ha
      rw [List.getD_eq_getElem?_getD, List.getElem?_eq_none (by simpa using ha)]
      rfl
  rcases h1 with h | h
  · rw [h]
    exact getD_replicate_zero m b
  · rw [h]
    rfl

theorem dimsOK_foldl {β : Type _} (l : List β) (g : Mat → β → Mat) (M0 : Mat) (n : ℕ)
    (hdim : dimsOK M0 n) (hg : ∀ M b, dimsOK M n → dimsOK (g M b) n) :
    dimsOK (l.foldl g M0) n := by
  induction l generalizing M0 with
  | nil => exact hdim
  | cons x xs ih => exact ih (g M0 x) (hg M0 x hdim)

/-- Edge-writing fold of `check_cycles_svd` (nn.py 1693-1698): an entry holds
`-1` iff some processed index wrote it (symmetrically). -/
theorem mget_foldl_lapedges (preds : List ℕ) (n : ℕ) (ks : List ℕ) (M0 : Mat)
    (hdim : dimsOK M0 n) (hks : ∀ k ∈ ks, k < n ∧ preds.getD k 0 < n) (a b : ℕ) :
    mget (ks.foldl (fun M k =>
        if k ≠ preds.getD k 0
        then mset (mset M k (preds.getD k 0) (-1)) (preds.getD k 0) k (-1) else M) M0) a b
      = if (∃ k ∈ ks, k ≠ preds.getD k 0 ∧
            ((a = k ∧ b = preds.getD k 0) ∨ (a = preds.getD k 0 ∧ b = k)))
        then -1 else mget M0 a b := by
  induction ks generalizing M0 with
  | nil => simp
  | cons k ks ih =>
    have hk := hks k (List.mem_cons_self k ks)
    have hks2 : ∀ k' ∈ ks, k' < n ∧ preds.getD k' 0 < n :=
      fun k' hk' => hks k' (List.mem_cons.mpr (Or.inr hk'))
    have hdim1 : dimsOK (if k ≠ preds.getD k 0
        then mset (mset M0 k (preds.getD k 0) (-1)) (preds.getD k 0) k (-1) else M0) n := by
      split
      · exact dimsOK_mset _ n _ _ _ (dimsOK_mset _ n _ _ _ hdim)
      · exact hdim
    simp only [List.foldl_cons]
    rw [ih _ hdim1 hks2]
    have hM1ab : mget (if k ≠ preds.getD k 0
        then mset (mset M0 k (preds.getD k 0) (-1)) (preds.getD k 0) k (-1) else M0) a b
        = if k ≠ preds.getD k 0 ∧
            ((a = k ∧ b = preds.getD k 0) ∨ (a = preds.getD k 0 ∧ b = k))
          then -1 else mget M0 a b := by
      by_cases hkp : k ≠ preds.getD k 0
      · rw [if_pos hkp]
        have hin : dimsOK (mset M0 k (preds.getD k 0) (-1)) n :=
          dimsOK_mset _ n _ _ _ hdim
        rw [mget_mset _ _ _ _ _ _ (by rw [hin.1]; exact hk.2)
          (by rw [hin.2 _ (getD_mem_of_lt _ (by rw [hin.1]; exact hk.2) [])]; exact hk.1)]
        rw [mget_mset _ _ _ _ _ _ (by rw [hdim.1]; exact hk.1)
          (by rw [hdim.2 _ (getD_mem_of_lt _ (by rw [hdim.1]; exact hk.1) [])]; exact hk.2)]
        by_cases h1 : a = preds.getD k 0 ∧ b = k
        · rw [if_pos h1, if_pos ⟨hkp, Or.inr h1⟩]
        · by_cases h2 : a = k ∧ b = preds.getD k 0
          · rw [if_neg h1, if_pos h2, if_pos ⟨hkp, Or.inl h2⟩]
          · rw [if_neg h1, if_neg h2, if_neg (by rintro ⟨_, hc | hc⟩; exacts [h2 hc, h1 hc])]
      · rw [if_neg hkp]
        push_neg at hkp
        rw [if_neg (by rintro ⟨hc, _⟩; exact hc hkp)]
    rw [hM1ab]
    by_cases he : ∃ k' ∈ ks, k' ≠ preds.getD k' 0 ∧
        ((a = k' ∧ b = preds.getD k' 0) ∨ (a = preds.getD k' 0 ∧ b = k'))
    · have hc : ∃ k' ∈ k :: ks, k' ≠ preds.getD k' 0 ∧
          ((a = k' ∧ b = preds.getD k' 0) ∨ (a = preds.getD k' 0 ∧ b = k')) := by
        obtain ⟨k', hk', hφ⟩ := he
        exact ⟨k', List.mem_cons.mpr (Or.inr hk'), hφ⟩
      rw [if_pos he, if_pos hc]
    · rw [if_neg he]
      by_cases hφ : k ≠ preds.getD k 0 ∧
          ((a = k ∧ b = preds.getD k 0) ∨ (a = preds.getD k 0 ∧ b = k))
      · have hc : ∃ k' ∈ k :: ks, k' ≠ preds.getD k' 0 ∧
            ((a = k' ∧ b = preds.getD k' 0) ∨ (a = preds.getD k' 0 ∧ b = k')) :=
          ⟨k, List.mem_cons.mpr (Or.inl rfl), hφ⟩
        rw [if_pos hφ, if_pos hc]
      · have hc : ¬∃ k' ∈ k :: ks, k' ≠ preds.getD k' 0 ∧
            ((a = k' ∧ b = preds.getD k' 0) ∨ (a = preds.getD k' 0 ∧ b = k')) := by
          rintro ⟨k', hk', hφ'⟩
          rcases List.mem_cons.mp hk' with h | h
          · subst h
            exact hφ hφ'
          · exact he ⟨k', h, hφ'⟩
        rw [if_neg hφ, if_neg hc]

/-- Diagonal-writing fold of `check_cycles_svd` (nn.py 1701-1702). -/
theorem mget_foldl_msetdiag (ks : List ℕ) (f : ℕ → ℚ) (M0 : Mat) (n : ℕ)
    (hdim : dimsOK M0 n) (hks : ∀ k ∈ ks, k < n) (a b : ℕ) :
    mget (ks.foldl (fun M k => mset M k k (f k)) M0) a b
      = if a = b ∧ a ∈ ks then f a else mget M0 a b := by
  induction ks generalizing M0 with
  | nil => simp
  | cons k ks ih =>
    have hk := hks k (List.mem_cons_self k ks)
    have hks2 : ∀ k' ∈ ks, k' < n := fun k' hk' => hks k' (List.mem_cons.mpr (Or.inr hk'))
    have hdim1 : dimsOK (mset M0 k k (f k)) n := dimsOK_mset _ n _ _ _ hdim
    simp only [List.foldl_cons]
    rw [ih _ hdim1 hks2]
    rw [mget_mset _ _ _ _ _ _ (by rw [hdim.1]; exact hk)
      (by rw [hdim.2 _ (getD_mem_of_lt _ (by rw [hdim.1]; exact hk) [])]; exact hk)]
    by_cases h1 : a = b ∧ a ∈ ks
    · rw [if_pos h1, if_pos ⟨h1.1, List.mem_cons.mpr (Or.inr h1.2)⟩]
    · rw [if_neg h1]
      by_cases h2 : a = k ∧ b = k
      · have hab : a = b ∧ a ∈ k :: ks := by
          refine ⟨by rw [h2.1, h2.2], List.mem_cons.mpr (Or.inl h2.1)⟩
        rw [if_pos h2, if_pos hab, h2.1]
      · have hab : ¬(a = b ∧ a ∈ k :: ks) := by
          rintro ⟨hab1, hab2⟩
          rcases List.mem_cons.mp hab2 with h | h
          · exact h2 ⟨h, by rw [← hab1]; exact h⟩
          · exact h1 ⟨hab1, h⟩
        rw [if_neg h2, if_neg hab]

theorem buildLap_eq_fold (preds : List ℕ) (length : ℕ) :
    buildLap preds length
      = (List.range length).foldl
          (fun M i => mset M i i ((lapDegrees preds length).getD i 0))
          (lapEdgesFold preds length) := rfl

theorem dimsOK_lapEdgesFold (preds : List ℕ) (length : ℕ) :
    dimsOK (lapEdgesFold preds length) length := by
  unfold lapEdgesFold
  apply dimsOK_foldl _ _ _ _ (dimsOK_zeros length)
  intro M k h
  dsimp only
  split
  · exact dimsOK_mset _ _ _ _ _ (dimsOK_mset _ _ _ _ _ h)
  · exact h

theorem lapedge_cond_iff (preds : List ℕ) (length : ℕ)
    (hlt : ∀ k < length, preds.getD k 0 < length) (a b : ℕ) :
    (∃ k ∈ List.range length, k ≠ preds.getD k 0 ∧
        ((a = k ∧ b = preds.getD k 0) ∨ (a = preds.getD k 0 ∧ b = k)))
      ↔ a < length ∧ b < length ∧ adjacentB preds a b = true := by
  constructor
  · rintro ⟨k, hk, hkp, ⟨h1, h2⟩ | ⟨h1, h2⟩⟩
    · have hkl := List.mem_range.mp hk
      refine ⟨by rw [h1]; exact hkl, by rw [h2]; exact hlt k hkl, ?_⟩
      simp only [adjacentB, Bool.and_eq_true, bne_iff_ne, ne_eq, Bool.or_eq_true, beq_iff_eq]
      refine ⟨by rw [h1, h2]; exact hkp, Or.inl (by rw [h1, h2])⟩
    · have hkl := List.mem_range.mp hk
      refine ⟨by rw [h1]; exact hlt k hkl, by rw [h2]; exact hkl, ?_⟩
      simp only [adjacentB, Bool.and_eq_true, bne_iff_ne, ne_eq, Bool.or_eq_true, beq_iff_eq]
      refine ⟨by rw [h1, h2]; exact (Ne.symm hkp), Or.inr (by rw [h1, h2])⟩
  · rintro ⟨ha, hb, hadj⟩
    simp only [adjacentB, Bool.and_eq_true, bne_iff_ne, ne_eq, Bool.or_eq_true,
      beq_iff_eq] at hadj
    obtain ⟨hab, h | h⟩ := hadj
    · exact ⟨a, List.mem_range.mpr ha, by rw [h]; exact hab, Or.inl ⟨rfl, h.symm⟩⟩
    · exact ⟨b, List.mem_range.mpr hb, by rw [h]; exact Ne.symm hab, Or.inr ⟨h.symm, rfl⟩⟩

theorem mget_lapEdgesFold (preds : List ℕ) (length : ℕ)
    (hlt : ∀ k < length, preds.getD k 0 < length) (a b : ℕ) :
    mget (lapEdgesFold preds length) a b
      = if a < length ∧ b < length ∧ adjacentB preds a b then -1 else 0 := by
  unfold lapEdgesFold
  rw [mget_foldl_lapedges preds length _ _ (dimsOK_zeros length)
    (fun k hk => ⟨List.mem_range.mp hk, hlt _ (List.mem_range.mp hk)⟩) a b]
  rw [mget_zeros]
  by_cases h : a < length ∧ b < length ∧ adjacentB preds a b = true
  · rw [if_pos ((lapedge_cond_iff preds length hlt a b).mpr h), if_pos h]
  · rw [if_neg (fun hc => h ((lapedge_cond_iff preds length hlt a b).mp hc)), if_neg h]

theorem lapDegrees_getD (preds : List ℕ) (length : ℕ)
    (hlt : ∀ k < length, preds.getD k 0 < length) (i : ℕ) (hi : i < length) :
    (lapDegrees preds length).getD i 0 = (degOf preds length i : ℚ) := by
  unfold lapDegrees
  rw [List.getD_eq_getElem?_getD, List.getElem?_map, List.getElem?_range hi]
  simp only [Option.map_some', Option.getD_some]
  have hcong : (List.range length).map (fun j => mget (lapEdgesFold preds length) j i)
      = (List.range length).map (fun j => if adjacentB preds i j then (-1 : ℚ) else 0) := by
    apply List.map_congr_left
    intro j hj
    rw [mget_lapEdgesFold preds length hlt j i]
    have hjl := List.mem_range.mp hj
    by_cases hadj : adjacentB preds j i = true
    · rw [if_pos ⟨hjl, hi, hadj⟩, if_pos (by rw [adjacentB_symm]; exact hadj)]
    · rw [if_neg (fun hc => hadj hc.2.2), if_neg (by rw [adjacentB_symm]; exact hadj)]
  rw [hcong, sum_map_ite_neg_one (List.range length) (fun j => adjacentB preds i j), neg_neg]
  rfl

theorem dimsOK_lapSpecMat (preds : List ℕ) (length : ℕ) :
    dimsOK (lapSpecMat preds length) length := by
  constructor
  · simp [lapSpecMat]
  · intro row hrow
    unfold lapSpecMat at hrow
    obtain ⟨i, _, hi⟩ := List.mem_map.mp hrow
    rw [← hi]
    simp

theorem mget_lapSpecMat (preds : List ℕ) (length i j : ℕ) (hi : i < length)
    (hj : j < length) :
    mget (lapSpecMat preds length) i j = lapSpec preds length i j := by
  unfold lapSpecMat mget
  rw [List.getD_eq_getElem?_getD _ i [], List.getElem?_map, List.getElem?_range hi]
  simp only [Option.map_some', Option.getD_some]
  rw [List.getD_eq_getElem?_getD, List.getElem?_map, List.getElem?_range hj]
  simp only [Option.map_some', Option.getD_some]

/-- `buildLap` builds exactly the Laplacian `D - A` of the undirected
assignment graph on the first `length` tokens (nn.py 1692-1702). -/
theorem buildLap_eq_lapSpecMat (preds : List ℕ) (length : ℕ)
    (hlt : ∀ k < length, preds.getD k 0 < length) :
    buildLap preds length = lapSpecMat preds length := by
  have hdimE := dimsOK_lapEdgesFold preds length
  have hdimB : dimsOK (buildLap preds length) length := by
    rw [buildLap_eq_fold]
    exact dimsOK_foldl _ _ _ _ hdimE (fun M k h => dimsOK_mset _ _ _ _ _ h)
  apply mat_ext _ _ length hdimB (dimsOK_lapSpecMat preds length)
  intro i hi j hj
  rw [mget_lapSpecMat preds length i j hi hj]
  rw [buildLap_eq_fold]
  rw [mget_foldl_msetdiag (List.range length) _ _ length hdimE
    (fun k hk => List.mem_range.mp hk) i j]
  unfold lapSpec
  by_cases hij : i = j
  · rw [if_pos ⟨hij, List.mem_range.mpr hi⟩, if_pos hij]
    subst hij
    exact lapDegrees_getD preds length hlt i hi
  · rw [if_neg (fun hc => hij hc.1), if_neg hij]
    rw [mget_lapEdgesFold preds length hlt i j]
    by_cases hadj : adjacentB preds i j = true
    · rw [if_pos ⟨hi, hj, hadj⟩, if_pos hadj]
    · rw [if_neg (fun hc => hadj hc.2.2), if_neg hadj]

theorem fullAdj_eq_fold (preds : List ℕ) :
    fullAdj preds
      = (List.range preds.length).foldl
          (fun M k => if k ≠ preds.getD k 0 then mset M k (preds.getD k 0) 1 else M)
          (zeros preds.length preds.length) := rfl

/-- Single-write fold of `fullAdj` (nn.py 1707-1709). -/
theorem mget_foldl_adjwrites (preds : List ℕ) (n : ℕ) (ks : List ℕ) (M0 : Mat)
    (hdim : dimsOK M0 n) (hks : ∀ k ∈ ks, k < n ∧ preds.getD k 0 < n) (a b : ℕ) :
    mget (ks.foldl (fun M k =>
        if k ≠ preds.getD k 0 then mset M k (preds.getD k 0) 1 else M) M0) a b
      = if ∃ k ∈ ks, k ≠ preds.getD k 0 ∧ a = k ∧ b = preds.getD k 0
        then 1 else mget M0 a b := by
  induction ks generalizing M0 with
  | nil => simp
  | cons k ks ih =>
    have hk := hks k (List.mem_cons_self k ks)
    have hks2 : ∀ k2 ∈ ks, k2 < n ∧ preds.getD k2 0 < n :=
      fun k2 hk2 => hks k2 (List.mem_cons.mpr (Or.inr hk2))
    have hdim1 : dimsOK (if k ≠ preds.getD k 0
        then mset M0 k (preds.getD k 0) 1 else M0) n := by
      split
      · exact dimsOK_mset _ n _ _ _ hdim
      · exact hdim
    simp only [List.foldl_cons]
    rw [ih _ hdim1 hks2]
    have hM1 : mget (if k ≠ preds.getD k 0 then mset M0 k (preds.getD k 0) 1 else M0) a b
        = if k ≠ preds.getD k 0 ∧ a = k ∧ b = preds.getD k 0 then 1 else mget M0 a b := by
      by_cases hkp : k ≠ preds.getD k 0
      · rw [if_pos hkp]
        rw [mget_mset _ _ _ _ _ _ (by rw [hdim.1]; exact hk.1)
          (by rw [hdim.2 _ (getD_mem_of_lt _ (by rw [hdim.1]; exact hk.1) [])]; exact hk.2)]
        by_cases h1 : a = k ∧ b = preds.getD k 0
        · rw [if_pos h1, if_pos ⟨hkp, h1⟩]
        · rw [if_neg h1, if_neg (fun hc => h1 hc.2)]
      · rw [if_neg hkp]
        push_neg at hkp
        rw [if_neg (by rintro ⟨hc, _⟩; exact hc hkp)]
    rw [hM1]
    by_cases he : ∃ k2 ∈ ks, k2 ≠ preds.getD k2 0 ∧ a = k2 ∧ b = preds.getD k2 0
    · rw [if_pos he, if_pos (by
        obtain ⟨k2, h2, hφ⟩ := he
        exact ⟨k2, List.mem_cons.mpr (Or.inr h2), hφ⟩)]
    · rw [if_neg he]
      by_cases hφ : k ≠ preds.getD k 0 ∧ a = k ∧ b = preds.getD k 0
      · rw [if_pos hφ, if_pos ⟨k, List.mem_cons.mpr (Or.inl rfl), hφ⟩]
      · rw [if_neg hφ, if_neg (by
          rintro ⟨k2, hk2, hφ2⟩
          rcases List.mem_cons.mp hk2 with h | h
          · rw [h] at hφ2
            exact hφ hφ2
          · exact he ⟨k2, h, hφ2⟩)]

theorem fulladj_cond_iff (preds : List ℕ) (a b : ℕ) :
    (∃ k ∈ List.range preds.length, k ≠ preds.getD k 0 ∧ a = k ∧ b = preds.getD k 0)
      ↔ a < preds.length ∧ dirAdjB preds a b = true := by
  simp only [dirAdjB, Bool.and_eq_true, bne_iff_ne, ne_eq, beq_iff_eq, List.mem_range]
  constructor
  · rintro ⟨k, hk, hkp, h1, h2⟩
    refine ⟨by rw [h1]; exact hk, ?_, by rw [h1, h2]⟩
    rw [h1, h2]
    exact hkp
  · rintro ⟨ha, hab, h⟩
    exact ⟨a, ha, by rw [h]; exact hab, rfl, h.symm⟩

theorem mget_fullAdj (preds : List ℕ)
    (hwf : ∀ k < preds.length, preds.getD k 0 < preds.length) (a b : ℕ) :
    mget (fullAdj preds) a b
      = if a < preds.length ∧ dirAdjB preds a b then 1 else 0 := by
  rw [fullAdj_eq_fold]
  rw [mget_foldl_adjwrites preds preds.length _ _ (dimsOK_zeros _)
    (fun k hk => ⟨List.mem_range.mp hk, hwf _ (List.mem_range.mp hk)⟩) a b]
  rw [mget_zeros]
  by_cases h : a < preds.length ∧ dirAdjB preds a b = true
  · rw [if_pos ((fulladj_cond_iff preds a b).mpr h), if_pos h]
  · rw [if_neg (fun hc => h ((fulladj_cond_iff preds a b).mp hc)), if_neg h]

theorem dirAdjB_pair_iff (preds : List ℕ) (i j : ℕ) :
    (dirAdjB preds i j = true ∧ dirAdjB preds j i = true)
      ↔ i ≠ j ∧ preds.getD i 0 = j ∧ preds.getD j 0 = i := by
  simp only [dirAdjB, Bool.and_eq_true, bne_iff_ne, ne_eq, beq_iff_eq]
  constructor
  · rintro ⟨⟨h1, h2⟩, ⟨h3, h4⟩⟩
    exact ⟨h1, h2, h4⟩
  · rintro ⟨h1, h2, h3⟩
    exact ⟨⟨h1, h2⟩, ⟨fun hc => h1 hc.symm, h3⟩⟩

theorem check_cycles_svd_def (preds : List ℕ) (length : ℕ) :
    check_cycles_svd preds length
      = ((if decide (0 < ((List.range preds.length).map (fun i =>
            ((List.range preds.length).map (fun j =>
              mget (fullAdj preds) i j * mget (fullAdj preds) j i)).sum)).sum)
          then 1 else 0),
         (if (1/2 : ℚ) * traceOf (buildLap preds length)
              ≥ (rankQ (buildLap preds length) : ℚ) + 1 then 1 else 0)) := rfl

/-- The eager detector: the 2-cycle flag is exactly the existence of a mutual
head pair, and the any-cycle flag is exactly the trace/rank inequality over the
true Laplacian of the undirected assignment graph. -/
theorem check_cycles_svd_spec (preds : List ℕ) (length : ℕ)
    (hwf : ∀ k < preds.length, preds.getD k 0 < preds.length)
    (hlt : ∀ k < length, preds.getD k 0 < length) :
    ((check_cycles_svd preds length).1 = 1
        ↔ ∃ i < preds.length, ∃ j < preds.length,
            i ≠ j ∧ preds.getD i 0 = j ∧ preds.getD j 0 = i)
    ∧ ((check_cycles_svd preds length).2 = 1
        ↔ (1/2 : ℚ) * traceOf (lapSpecMat preds length)
            ≥ (rankQ (lapSpecMat preds length) : ℚ) + 1) := by
  rw [check_cycles_svd_def]
  have hiff := pairs_sum_pos_iff (fullAdj preds) preds.length
    (fun i j => dirAdjB preds i j)
    (fun i hi j hj => by
      rw [mget_fullAdj preds hwf i j]
      by_cases hd : dirAdjB preds i j = true
      · rw [if_pos ⟨hi, hd⟩, if_pos hd]
      · rw [if_neg (fun hc => hd hc.2), if_neg hd])
  have hiff2 : (∃ i < preds.length, ∃ j < preds.length,
        dirAdjB preds i j = true ∧ dirAdjB preds j i = true)
      ↔ ∃ i < preds.length, ∃ j < preds.length,
          i ≠ j ∧ preds.getD i 0 = j ∧ preds.getD j 0 = i := by
    constructor
    · rintro ⟨i, hi, j, hj, hp⟩
      exact ⟨i, hi, j, hj, (dirAdjB_pair_iff preds i j).mp hp⟩
    · rintro ⟨i, hi, j, hj, hp⟩
      exact ⟨i, hi, j, hj, (dirAdjB_pair_iff preds i j).mpr hp⟩
  constructor
  · by_cases hc : 0 < ((List.range preds.length).map (fun i =>
        ((List.range preds.length).map (fun j =>
          mget (fullAdj preds) i j * mget (fullAdj preds) j i)).sum)).sum
    · rw [if_pos (decide_eq_true hc)]
      exact iff_of_true rfl (hiff2.mp (hiff.mp hc))
    · rw [if_neg (fun hd => hc (of_decide_eq_true hd))]
      exact iff_of_false (by norm_num) (fun hex => hc (hiff.mpr (hiff2.mpr hex)))
  · rw [buildLap_eq_lapSpecMat preds length hlt]
    by_cases hc : (1/2 : ℚ) * traceOf (lapSpecMat preds length)
        ≥ (rankQ (lapSpecMat preds length) : ℚ) + 1
    · rw [if_pos hc]
      exact iff_of_true rfl hc
    · rw [if_neg hc]
      exact iff_of_false (by norm_num) hc

theorem mget_rangeMat (f : ℕ → ℕ → ℚ) (n i j : ℕ) (hi : i < n) (hj : j < n) :
    mget ((List.range n).map (fun i => (List.range n).map (fun j => f i j))) i j
      = f i j := by
  unfold mget
  rw [List.getD_eq_getElem?_getD _ i [], List.getElem?_map, List.getElem?_range hi]
  simp only [Option.map_some', Option.getD_some]
  rw [List.getD_eq_getElem?_getD, List.getElem?_map, List.getElem?_range hj]
  simp only [Option.map_some', Option.getD_some]

theorem dimsOK_rangeMat (f : ℕ → ℕ → ℚ) (n : ℕ) :
    dimsOK ((List.range n).map (fun i => (List.range n).map (fun j => f i j))) n := by
  constructor
  · simp
  · intro row hrow
    obtain ⟨i, _, hi⟩ := List.mem_map.mp hrow
    rw [← hi]
    simp

theorem length_scatterArgmax (logits : Mat) (bucket : ℕ) :
    (scatterArgmax logits bucket).length = bucket := by
  simp [scatterArgmax]

theorem getD_scatterArgmax (logits : Mat) (bucket i : ℕ) (hi : i < bucket) :
    (scatterArgmax logits bucket).getD i []
      = (List.range bucket).map
          (fun j => if argmax (logits.getD i []) = j then (1 : ℚ) else 0) := by
  unfold scatterArgmax
  rw [List.getD_eq_getElem?_getD _ i [], List.getElem?_map, List.getElem?_range hi]
  simp

theorem length_maskRows (M : Mat) (keep : List Bool) :
    (maskRows M keep).length = M.length := by
  simp [maskRows]

theorem mget_batchAdjM (logits : Mat) (keep : List Bool) (bucket i j : ℕ)
    (hi : i < bucket) (hj : j < bucket) :
    mget (batchAdjM logits keep bucket) i j
      = if batchAdjB logits keep i j then 1 else 0 := by
  unfold batchAdjM zeroDiag mget
  have hlen1 : i < (maskRows (scatterArgmax logits bucket) keep).length := by
    rw [length_maskRows, length_scatterArgmax]
    exact hi
  rw [getD_mapIdx_lt _ _ hlen1 [] []]
  unfold maskRows
  have hlen2 : i < (scatterArgmax logits bucket).length := by
    rw [length_scatterArgmax]
    exact hi
  rw [getD_mapIdx_lt _ _ hlen2 [] []]
  rw [getD_scatterArgmax logits bucket i hi]
  by_cases hij : j = i
  · rw [hij, getD_set_self _ _ _ _ (by simpa using hi)]
    simp [batchAdjB]
  · rw [getD_set_ne _ _ _ (fun hc => hij hc.symm)]
    rw [getD_map_lt _ _ (by simpa using hj) 0 0]
    rw [getD_map_lt _ _ (by simpa using hj) (0 : ℚ) 0, getD_range bucket j hj 0]
    have hij2 : i ≠ j := fun hc => hij hc.symm
    simp only [List.getD_eq_getElem?_getD]
    by_cases hk : keep[i]?.getD false
    · by_cases ha : argmax (logits[i]?.getD []) = j
      · simp [batchAdjB, hk, ha, hij2]
      · simp [batchAdjB, hk, ha]
    · simp [batchAdjB, hk]

theorem mget_batchUndirM (logits : Mat) (keep : List Bool) (bucket i j : ℕ)
    (hi : i < bucket) (hj : j < bucket) :
    mget (batchUndirM logits keep bucket) i j
      = if batchUndirB logits keep i j then 1 else 0 := by
  unfold batchUndirM orMat
  rw [mget_rangeMat _ bucket i j hi hj]
  have h1 : mget (batchAdjM logits keep bucket) i j
      = if batchAdjB logits keep i j then 1 else 0 := mget_batchAdjM _ _ _ _ _ hi hj
  have h2 : mget (maskRows (transposeM (batchAdjM logits keep bucket) bucket) keep) i j
      = if keep.getD i false && batchAdjB logits keep j i then 1 else 0 := by
    unfold mget maskRows
    have hlen : i < (transposeM (batchAdjM logits keep bucket) bucket).length := by
      simp [transposeM, hi]
    rw [getD_mapIdx_lt _ _ hlen [] []]
    have hjlen : j < ((transposeM (batchAdjM logits keep bucket) bucket).getD i []).length := by
      unfold transposeM
      rw [List.getD_eq_getElem?_getD _ i [], List.getElem?_map, List.getElem?_range hi]
      simpa using hj
    rw [getD_map_lt _ _ hjlen 0 0]
    have h3 : ((transposeM (batchAdjM logits keep bucket) bucket).getD i []).getD j 0
        = mget (batchAdjM logits keep bucket) j i := by
      unfold transposeM
      rw [List.getD_eq_getElem?_getD _ i [], List.getElem?_map, List.getElem?_range hi]
      simp only [Option.map_some', Option.getD_some]
      rw [getD_map_lt _ _ (by simpa using hj) (0 : ℚ) 0, getD_range bucket j hj 0]
    rw [h3, mget_batchAdjM _ _ _ _ _ hj hi]
    simp only [List.getD_eq_getElem?_getD]
    by_cases hk : keep[i]?.getD false
    · by_cases hb : batchAdjB logits keep j i
      · simp [hk, hb]
      · simp [hk, hb]
    · simp [hk]
  rw [h1, h2]
  unfold batchUndirB
  by_cases ha : batchAdjB logits keep i j
  · simp [ha]
  · by_cases hk : keep.getD i false && batchAdjB logits keep j i
    · simp [ha, hk]
    · simp [ha, hk]

theorem batch_inner_deg (logits : Mat) (keep : List Bool) (bucket j : ℕ) (hj : j < bucket) :
    ((List.range bucket).map (fun i => mget (batchUndirM logits keep bucket) i j)).sum
      = (batchDeg logits keep bucket j : ℚ) := by
  have hcong : (List.range bucket).map (fun k => mget (batchUndirM logits keep bucket) k j)
      = (List.range bucket).map (fun k => if batchUndirB logits keep k j then (1 : ℚ) else 0) :=
    List.map_congr_left
      (fun k hk => mget_batchUndirM logits keep bucket k j (List.mem_range.mp hk) hj)
  rw [hcong, sum_map_ite_one (List.range bucket) (fun k => batchUndirB logits keep k j)]
  rfl

theorem batch_degrees_getD (logits : Mat) (keep : List Bool) (bucket i : ℕ) (hi : i < bucket) :
    ((List.range bucket).map (fun j => ((List.range bucket).map (fun k =>
        mget (batchUndirM logits keep bucket) k j)).sum)).getD i 0
      = (batchDeg logits keep bucket i : ℚ) := by
  rw [List.getD_eq_getElem?_getD _ i 0, List.getElem?_map, List.getElem?_range hi]
  simp only [Option.map_some', Option.getD_some]
  exact batch_inner_deg logits keep bucket i hi

theorem mget_batchLapSpecMat (logits : Mat) (keep : List Bool) (bucket i j : ℕ)
    (hi : i < bucket) (hj : j < bucket) :
    mget (batchLapSpecMat logits keep bucket) i j
      = batchLapSpec logits keep bucket i j := by
  unfold batchLapSpecMat
  exact mget_rangeMat _ bucket i j hi hj

theorem mget_def (M : Mat) (i j : ℕ) : mget M i j = (M.getD i []).getD j 0 := rfl

theorem mget_negMat (M : Mat) (i j : ℕ) : mget (negMat M) i j = -(mget M i j) := by
  unfold negMat mget
  by_cases hi : i < M.length
  · rw [getD_map_lt _ _ hi [] []]
    exact getD_map_neg _ j
  · push_neg at hi
    rw [List.getD_eq_getElem?_getD _ i [], List.getElem?_eq_none (by simpa using hi)]
    rw [List.getD_eq_getElem?_getD M i [], List.getElem?_eq_none (by simpa using hi)]
    simp

theorem dimsOK_mapIdx_set (M : Mat) (n : ℕ) (g : ℕ → ℚ) (h : dimsOK M n) :
    dimsOK (M.mapIdx (fun i row => row.set i (g i))) n := by
  constructor
  · simp [h.1]
  · intro row hrow
    obtain ⟨i, hilen, hrow2⟩ := List.mem_iff_getElem.mp hrow
    rw [List.getElem_mapIdx] at hrow2
    rw [← hrow2, List.length_set]
    exact h.2 _ (List.getElem_mem _)

theorem dimsOK_batchUndirM (logits : Mat) (keep : List Bool) (bucket : ℕ) :
    dimsOK (batchUndirM logits keep bucket) bucket := by
  unfold batchUndirM orMat
  exact dimsOK_rangeMat _ bucket

/-- The Laplacian assembled by `compute_cycles` equals the entrywise spec
Laplacian. -/
theorem batchLap_eq_spec (logits : Mat) (keep : List Bool) (bucket : ℕ) :
    (negMat (batchUndirM logits keep bucket)).mapIdx (fun i row => row.set i
        (((List.range bucket).map (fun j => ((List.range bucket).map (fun k =>
          mget (batchUndirM logits keep bucket) k j)).sum)).getD i 0))
      = batchLapSpecMat logits keep bucket := by
  have hdimU := dimsOK_batchUndirM logits keep bucket
  have hdimN : dimsOK (negMat (batchUndirM logits keep bucket)) bucket := by
    constructor
    · simp [negMat, hdimU.1]
    · intro row hrow
      obtain ⟨r, hr, hrr⟩ := List.mem_map.mp hrow
      rw [← hrr, List.length_map]
      exact hdimU.2 r hr
  apply mat_ext _ _ bucket (dimsOK_mapIdx_set _ _ _ hdimN)
    (by unfold batchLapSpecMat; exact dimsOK_rangeMat _ bucket)
  intro i hi j hj
  rw [mget_batchLapSpecMat logits keep bucket i j hi hj]
  rw [mget_def, getD_mapIdx_lt _ _ (by rw [hdimN.1]; exact hi) [] []]
  by_cases hij : j = i
  · rw [hij, getD_set_self _ _ _ _
      (by rw [hdimN.2 _ (getD_mem_of_lt _ (by rw [hdimN.1]; exact hi) [])]; exact hi)]
    rw [batch_degrees_getD logits keep bucket i hi]
    unfold batchLapSpec
    rw [if_pos rfl]
  · rw [getD_set_ne _ _ _ (fun hc => hij hc.symm)]
    have hrow : ((negMat (batchUndirM logits keep bucket)).getD i []).getD j 0
        = mget (negMat (batchUndirM logits keep bucket)) i j := rfl
    rw [hrow, mget_negMat, mget_batchUndirM logits keep bucket i j hi hj]
    unfold batchLapSpec
    rw [if_neg (show ¬i = j from fun hc => hij hc.symm)]
    by_cases hb : batchUndirB logits keep i j
    · rw [if_pos hb, if_pos hb]
    · rw [if_neg hb, if_neg hb]
      norm_num

theorem batch_trace_eq (logits : Mat) (keep : List Bool) (bucket : ℕ) :
    ((List.range bucket).map (fun j => ((List.range bucket).map (fun k =>
        mget (batchUndirM logits keep bucket) k j)).sum)).sum
      = traceOf (batchLapSpecMat logits keep bucket) := by
  unfold traceOf
  have hlen : (batchLapSpecMat logits keep bucket).length = bucket := by
    simp [batchLapSpecMat]
  rw [hlen]
  refine congrArg List.sum (List.map_congr_left ?_)
  intro j hj
  have hjl := List.mem_range.mp hj
  rw [batch_inner_deg logits keep bucket j hjl,
    mget_batchLapSpecMat logits keep bucket j j hjl hjl]
  unfold batchLapSpec
  rw [if_pos rfl]

theorem compute_cycles_sentence_def (logits : Mat) (keep : List Bool) (bucket : ℕ) :
    compute_cycles_sentence logits keep bucket
      = (decide ((1/2 : ℚ) * ((List.range bucket).map (fun j =>
              ((List.range bucket).map (fun k =>
                mget (batchUndirM logits keep bucket) k j)).sum)).sum
            ≥ (rankQ ((negMat (batchUndirM logits keep bucket)).mapIdx (fun i row =>
                row.set i (((List.range bucket).map (fun j =>
                  ((List.range bucket).map (fun k =>
                    mget (batchUndirM logits keep bucket) k j)).sum)).getD i 0))) : ℚ) + 1),
         decide (0 < ((List.range bucket).map (fun i =>
            ((List.range bucket).map (fun j =>
              mget (batchAdjM logits keep bucket) i j
                * mget (batchAdjM logits keep bucket) j i)).sum)).sum)) := rfl

/-- The batched detector, per sentence: any-cycle flag is the trace/rank
inequality over the spec Laplacian; 2-cycle flag is the existence of a mutual
directed pair. -/
theorem compute_cycles_sentence_spec (logits : Mat) (keep : List Bool) (bucket : ℕ) :
    ((compute_cycles_sentence logits keep bucket).1 = true
        ↔ (1/2 : ℚ) * traceOf (batchLapSpecMat logits keep bucket)
            ≥ (rankQ (batchLapSpecMat logits keep bucket) : ℚ) + 1)
    ∧ ((compute_cycles_sentence logits keep bucket).2 = true
        ↔ ∃ i < bucket, ∃ j < bucket,
            batchAdjB logits keep i j = true ∧ batchAdjB logits keep j i = true) := by
  rw [compute_cycles_sentence_def]
  constructor
  · simp only [decide_eq_true_eq]
    rw [batch_trace_eq logits keep bucket, batchLap_eq_spec logits keep bucket]
  · simp only [decide_eq_true_eq]
    exact pairs_sum_pos_iff (batchAdjM logits keep bucket) bucket
      (fun i j => batchAdjB logits keep i j)
      (fun i hi j hj => mget_batchAdjM logits keep bucket i j hi hj)

theorem compute_cycles_getD (logitsB : List Mat) (keepB : List (List Bool)) (bucket b : ℕ)
    (hb : b < min logitsB.length keepB.length) :
    (compute_cycles logitsB keepB bucket).getD b (false, false)
      = compute_cycles_sentence (logitsB.getD b []) (keepB.getD b []) bucket := by
  unfold compute_cycles
  exact getD_zipWith _ _ _ (lt_min_iff.mp hb).1 (lt_min_iff.mp hb).2 (false, false) [] []

/-- C4 (amended): the eager detector's 2-cycle flag is exactly the existence
of a mutual head pair and its any-cycle flag is exactly
`0.5 * trace(L) >= rank(L) + 1` over the Laplacian of the undirected
assignment graph (rank modelled exactly); the batched detector's flags follow
the same formulas over its own masked-symmetrized Laplacian; the tolerance
`max_dimension * float32_eps` is exactly the batched detector's rank
threshold, while the eager detector's fixed `1e-15` differs from it at every
dimension. -/
theorem C4_detector_formulas (preds : List ℕ) (length : ℕ)
    (logitsB : List Mat) (keepB : List (List Bool)) (bucket b : ℕ)
    (hwf : ∀ k < preds.length, preds.getD k 0 < preds.length)
    (hlt : ∀ k < length, preds.getD k 0 < length)
    (hb : b < min logitsB.length keepB.length) :
    ((check_cycles_svd preds length).1 = 1
        ↔ ∃ i < preds.length, ∃ j < preds.length,
            i ≠ j ∧ preds.getD i 0 = j ∧ preds.getD j 0 = i)
    ∧ ((check_cycles_svd preds length).2 = 1
        ↔ (1/2 : ℚ) * traceOf (lapSpecMat preds length)
            ≥ (rankQ (lapSpecMat preds length) : ℚ) + 1)
    ∧ (((compute_cycles logitsB keepB bucket).getD b (false, false)).1 = true
        ↔ (1/2 : ℚ) * traceOf (batchLapSpecMat (logitsB.getD b []) (keepB.getD b []) bucket)
            ≥ (rankQ (batchLapSpecMat (logitsB.getD b []) (keepB.getD b []) bucket) : ℚ) + 1)
    ∧ (((compute_cycles logitsB keepB bucket).getD b (false, false)).2 = true
        ↔ ∃ i < bucket, ∃ j < bucket,
            batchAdjB (logitsB.getD b []) (keepB.getD b []) i j = true
              ∧ batchAdjB (logitsB.getD b []) (keepB.getD b []) j i = true)
    ∧ compute_cycles_tol bucket = specRankTol bucket
    ∧ check_cycles_svd_tol ≠ specRankTol bucket := by
  have he := check_cycles_svd_spec preds length hwf hlt
  have hcc := compute_cycles_getD logitsB keepB bucket b hb
  have hs := compute_cycles_sentence_spec (logitsB.getD b []) (keepB.getD b []) bucket
  refine ⟨he.1, he.2, ?_, ?_, rfl, ?_⟩
  · rw [hcc]
    exact hs.1
  · rw [hcc]
    exact hs.2
  · unfold check_cycles_svd_tol specRankTol float32_eps
    intro hcontra
    rcases Nat.eq_zero_or_pos bucket with h0 | hpos
    · rw [h0] at hcontra
      norm_num at hcontra
    · have h1 : (1 : ℚ) ≤ (bucket : ℚ) := by exact_mod_cast hpos
      have h2 : (1 : ℚ) * (1 / 2 ^ 23) ≤ (bucket : ℚ) * (1 / 2 ^ 23) := by
        apply mul_le_mul_of_nonneg_right h1
        norm_num
      rw [← hcontra] at h2
      norm_num at h2

/-- C4 witness: the hypotheses hold and the characterization applies on the
2-cycle assignment `[1, 0]` with a matching one-sentence batch. -/
theorem C4_detector_formulas_witness :
    ((∀ k < 2, [1, 0].getD k 0 < 2) ∧ 0 < min 1 1)
    ∧ (((check_cycles_svd [1, 0] 2).1 = 1
          ↔ ∃ i < 2, ∃ j < 2, i ≠ j ∧ [1, 0].getD i 0 = j ∧ [1, 0].getD j 0 = i)
      ∧ ((check_cycles_svd [1, 0] 2).2 = 1
          ↔ (1/2 : ℚ) * traceOf (lapSpecMat [1, 0] 2)
              ≥ (rankQ (lapSpecMat [1, 0] 2) : ℚ) + 1)
      ∧ (((compute_cycles [[[0, 1], [1, 0]]] [[true, true]] 2).getD 0 (false, false)).1 = true
          ↔ (1/2 : ℚ) * traceOf (batchLapSpecMat [[0, 1], [1, 0]] [true, true] 2)
              ≥ (rankQ (batchLapSpecMat [[0, 1], [1, 0]] [true, true] 2) : ℚ) + 1)
      ∧ (((compute_cycles [[[0, 1], [1, 0]]] [[true, true]] 2).getD 0 (false, false)).2 = true
          ↔ ∃ i < 2, ∃ j < 2,
              batchAdjB [[0, 1], [1, 0]] [true, true] i j = true
                ∧ batchAdjB [[0, 1], [1, 0]] [true, true] j i = true)
      ∧ compute_cycles_tol 2 = specRankTol 2
      ∧ check_cycles_svd_tol ≠ specRankTol 2) :=
  ⟨⟨by decide, by decide⟩,
    C4_detector_formulas [1, 0] 2 [[[0, 1], [1, 0]]] [[true, true]] 2 0
      (by decide) (by decide) (by decide)⟩

theorem augMatrix_row (P : Mat) (i : ℕ) (hin : i < P.length) :
    (augMatrix P).getD (i + 1) []
      = (((List.range P.length).map (fun k => mget P k k)).getD i 0)
          :: ((P.mapIdx (fun a row =>
                row.mapIdx (fun b x => if a = b then 0 else x))).getD i []) := by
  show (List.zipWith (fun rp row => rp :: row)
      ((List.range P.length).map (fun k => mget P k k))
      (P.mapIdx (fun a row => row.mapIdx (fun b x => if a = b then 0 else x)))).getD i []
    = _
  exact getD_zipWith _ _ _ (by simpa using hin) (by simpa using hin) [] 0 []

/-- C3 (amended): on the repair path the returned assignment is the row-argmin
decode of the undirected Kruskal MST of the negated augmented matrix; the
augmented matrix prepends an all-zero super-root row, stores the diagonal root
probabilities in column 0, and embeds the diagonal-zeroed score matrix in the
remaining block.  (That this decode can miss the minimum arborescence cost —
and need not even be an arborescence — is the separate counterexample.) -/
theorem C3_mst_pipeline (svd_tree : Bool) (P : Mat) (keep : List Bool)
    (n l2 : ℤ) (n0 : ℕ) (hdim : dimsOK P n0)
    (hrep : parseRepairCond svd_tree n l2 = true) :
    ((parse_argmax true svd_tree P keep n l2).parse_preds
        = mstDecode (minimum_spanning_tree (negMat (augMatrix
            (rootNormalize ((maskCols P keep).map argmax) (maskCols P keep)
              (countTrue keep)).2))) (countTrue keep))
    ∧ (augMatrix P).length = n0 + 1
    ∧ (∀ j, mget (augMatrix P) 0 j = 0)
    ∧ (∀ i < n0, mget (augMatrix P) (i + 1) 0 = mget P i i)
    ∧ (∀ i < n0, ∀ j < n0,
        mget (augMatrix P) (i + 1) (j + 1) = if i = j then 0 else mget P i j) := by
  refine ⟨?_, ?_, ?_, ?_, ?_⟩
  · unfold parse_argmax
    simp only [hrep, if_true]
  · simp [augMatrix, hdim.1]
  · intro j
    rw [mget_def]
    rw [show (augMatrix P).getD 0 [] = List.replicate (P.length + 1) (0 : ℚ) from rfl]
    exact getD_replicate_zero _ j
  · intro i hi
    have hin : i < P.length := by rw [hdim.1]; exact hi
    rw [mget_def, augMatrix_row P i hin, List.getD_cons_zero]
    rw [getD_map_lt _ _ (by simpa using hin) 0 0, getD_range P.length i hin 0]
  · intro i hi j hj
    have hin : i < P.length := by rw [hdim.1]; exact hi
    have hjn : j < (P.getD i []).length := by
      rw [hdim.2 _ (getD_mem_of_lt P hin [])]
      exact hj
    rw [mget_def, augMatrix_row P i hin, List.getD_cons_succ]
    rw [getD_mapIdx_lt _ _ hin [] []]
    rw [getD_mapIdx_lt _ _ hjn 0 0]
    by_cases hij : i = j
    · rw [if_pos hij, if_pos hij]
    · rw [if_neg hij, if_neg hij]
      rfl

/-- C3 witness: the pipeline and the augmented-matrix shape at the concrete
counterexample matrix (3 valid tokens, default flags). -/
theorem C3_mst_pipeline_witness :
    (dimsOK cexProbs 3 ∧ parseRepairCond false (-1) (-1) = true)
    ∧ (((parse_argmax true false cexProbs [true, true, true] (-1) (-1)).parse_preds
        = mstDecode (minimum_spanning_tree (negMat (augMatrix
            (rootNormalize ((maskCols cexProbs [true, true, true]).map argmax)
              (maskCols cexProbs [true, true, true])
              (countTrue [true, true, true])).2))) (countTrue [true, true, true]))
      ∧ (augMatrix cexProbs).length = 3 + 1
      ∧ (∀ j, mget (augMatrix cexProbs) 0 j = 0)
      ∧ (∀ i < 3, mget (augMatrix cexProbs) (i + 1) 0 = mget cexProbs i i)
      ∧ (∀ i < 3, ∀ j < 3,
          mget (augMatrix cexProbs) (i + 1) (j + 1)
            = if i = j then 0 else mget cexProbs i j)) :=
  ⟨⟨⟨by decide, by decide⟩, by decide⟩,
    C3_mst_pipeline false cexProbs [true, true, true] (-1) (-1) 3
      ⟨by decide, by decide⟩ (by decide)⟩

end Claims

end LISA
